import Mathlib

/-!
# Verification of the tchannel argument-stream layer (`src/node/argstream.js`)

Shallow embedding of the argument-stream multiplexing/demultiplexing engine.
Bytes are natural numbers, chunks are byte lists (`Buffer` contents), and a
frame chunk-group is a list of chunks.  The node `PassThrough` slot streams
are modelled by their observable bookkeeping: a `started` flag (set on the
first write, when the `start` event fires), an `ended` flag, and the
concatenation of all bytes written so far.  Event emission (`frame`,
`error`) is modelled by returning the emitted values alongside the updated
state; a thrown JS exception is modelled as a returned error value next to
the mutated state (a JS `throw` does not roll back earlier field mutations).

The `setImmediate` deferred flush of `OutArgStream` is modelled by a
`flushImmed : Bool` flag ("a flush is scheduled") together with an explicit
`tick` driver action that fires the scheduled callback.  Pausing the three
slot `PassThrough` streams suppresses their event delivery in node; per the
specification ("writes continue to accumulate into the pending frame while
paused") the driver model delivers `data`/`end` events to the mux handler
directly, so writes made while paused accumulate in the pending frame.
-/

abbrev Chunk : Type := List Nat

abbrev FrameGroup : Type := List Chunk

/-- One `StreamArg` slot (a `PassThrough` with a `started` flag):
`started` is set on the first `_write`, `ended` records that `end()` was
called, `data` is the concatenation of all bytes written. -/
structure StreamArg where
  started : Bool
  ended : Bool
  data : List Nat
deriving Repr, DecidableEq

def StreamArg.init : StreamArg := ⟨false, false, []⟩

/-- `end()` on a slot; the callers below guard it so that it only ever
transitions once (repeated `end` is a no-op). -/
def StreamArg.endMark (t : StreamArg) : StreamArg := { t with ended := true }

/-- The three `arg1/arg2/arg3` slots owned by one `ArgStream` pair. -/
structure ArgsState where
  arg1 : StreamArg
  arg2 : StreamArg
  arg3 : StreamArg
deriving Repr, DecidableEq

def ArgsState.init : ArgsState := ⟨.init, .init, .init⟩

/-- `self.streams[i]`, 0-based as in the source; indices ≥ 3 are guarded
against at every call site (JS would yield `undefined`). -/
def ArgsState.slotAt (a : ArgsState) : Nat → StreamArg
  | 0 => a.arg1
  | 1 => a.arg2
  | 2 => a.arg3
  | _ => StreamArg.init

def ArgsState.setAt (a : ArgsState) : Nat → StreamArg → ArgsState
  | 0, t => { a with arg1 := t }
  | 1, t => { a with arg2 := t }
  | 2, t => { a with arg3 := t }
  | _, _ => a

/-- `StreamArg.prototype._write` plus the `ArgStream` pair wiring: on the
first write to a slot its `start` event fires, and the pair ends the
previous slot if it was not already ended (`onArg2Start`/`onArg3Start`).
Index `k` is 0-based, so writing index `k` is writing argument `k+1`. -/
def ArgsState.writeSlot (a : ArgsState) (k : Nat) (c : Chunk) : ArgsState :=
  let t := a.slotAt k
  if t.started then
    a.setAt k { t with data := t.data ++ c }
  else
    let a1 :=
      if k = 1 then (if (a.slotAt 0).ended then a else a.setAt 0 (a.slotAt 0).endMark)
      else if k = 2 then (if (a.slotAt 1).ended then a else a.setAt 1 (a.slotAt 1).endMark)
      else a
    let t1 := a1.slotAt k
    a1.setAt k { t1 with started := true, data := t1.data ++ c }

/-- Errors thrown by `InArgStream.prototype.handleFrame`:
`alreadyFinished` is `throw new Error('arg stream finished')`
(`StreamAlreadyFinished`), `arity` is
`throw new Error('frame parts exceeded stream arity')` (`FrameArityExceeded`). -/
inductive InErr
  | alreadyFinished
  | arity
deriving Repr, DecidableEq

/-- `InArgStream`: the three slots, the 0-based demux cursor `_iStream`,
the count of slot `finish` events, and the `finished` flag (set when all
three slots have ended). -/
structure InArgStream where
  args : ArgsState
  iStream : Nat
  numFinished : Nat
  finished : Bool
deriving Repr, DecidableEq

def InArgStream.init : InArgStream := ⟨.init, 0, 0, false⟩

/-- End slot `k` of an `InArgStream`: idempotent, and on a real transition
the slot's `finish` event increments `_numFinished`; when the count reaches
3 the stream as a whole becomes `finished`. -/
def InArgStream.endIdx (s : InArgStream) (k : Nat) : InArgStream :=
  if (s.args.slotAt k).ended then s
  else
    { s with args := s.args.setAt k (s.args.slotAt k).endMark,
             numFinished := s.numFinished + 1,
             finished := if s.numFinished + 1 = 3 then true else s.finished }

/-- Write a chunk to slot `k` of an `InArgStream`: `_write` fires `start`
on the first write, and the pair wiring then ends the previous slot if it
was not already ended (routed through `endIdx` so the `finish` count is
maintained). -/
def InArgStream.writeIdx (s : InArgStream) (k : Nat) (x : Chunk) : InArgStream :=
  let s1 :=
    if (s.args.slotAt k).started then s
    else if k = 1 then s.endIdx 0
    else if k = 2 then s.endIdx 1
    else s
  let t1 := s1.args.slotAt k
  { s1 with args := s1.args.setAt k { t1 with started := true, data := t1.data ++ x } }

/-- `advance()` inside `handleFrame`: if the cursor is not yet exhausted,
end the slot at the cursor and move the cursor forward. -/
def InArgStream.advance (s : InArgStream) : InArgStream :=
  if s.iStream < 3 then
    { s.endIdx s.iStream with iStream := s.iStream + 1 }
  else s

/-- The `parts === null` path of `handleFrame`: `while (stream) stream =
advance()` ends every slot from the cursor forward; from any cursor value
at most three `advance` calls make further ones no-ops. -/
def InArgStream.handleNull (s : InArgStream) : InArgStream :=
  s.advance.advance.advance

/-- The main loop of `handleFrame` over the chunk positions of a group:
position 0 is consumed at the current cursor, each later position advances
the cursor first; if the cursor is exhausted while positions remain the
call fails with the arity error (the JS throw leaves all mutations made so
far in place, hence the state is returned alongside the error). -/
def InArgStream.consume : InArgStream → List Chunk → InArgStream × Option InErr
  | s, [] => (s, none)
  | s, x :: rest =>
    if 3 ≤ s.iStream then (s, some .arity)
    else
      let s1 := if x.length = 0 then s else s.writeIdx s.iStream x
      match rest with
      | [] => (s1, none)
      | _ :: _ => s1.advance.consume rest

/-- `InArgStream.prototype.handleFrame`.  Note the order of the guards in
the source: the `null` (stream reset) path is checked and returns before
the `finished` check, so a `null` frame after `finished` is a no-op rather
than an error. -/
def InArgStream.handleFrame (s : InArgStream) (parts : Option (List Chunk)) :
    InArgStream × Option InErr :=
  match parts with
  | none => (s.handleNull, none)
  | some ps =>
    if s.finished then (s, some .alreadyFinished)
    else s.consume ps

/-- Feed a list of frame groups into an `InArgStream`, stopping at the
first error (a JS throw aborts the caller's feeding loop). -/
def runIn : InArgStream → List FrameGroup → InArgStream × Option InErr
  | s, [] => (s, none)
  | s, g :: rest =>
    match s.handleFrame (some g) with
    | (s1, none) => runIn s1 rest
    | (s1, some e) => (s1, some e)

/-- The `ArgChunkOutOfOrderError` emitted by
`OutArgStream.prototype._handleFrameChunk`, carrying `current`, `got` and
the offending chunk. -/
inductive OutErr
  | outOfOrder (current got : Nat) (chunk : Chunk)
deriving Repr, DecidableEq

/-- An emitted `frame` event: the chunk group and its `isLast` flag. -/
abbrev Emit : Type := FrameGroup × Bool

/-- `OutArgStream` assembly state: the pending frame, the 1-based assembly
cursor `currentArgN`, the `ended[1..3]` flags, and the `finished`,
`paused` and scheduled-flush (`_flushImmed`) flags. -/
structure OutArgStream where
  frame : FrameGroup
  currentArgN : Nat
  ended1 : Bool
  ended2 : Bool
  ended3 : Bool
  finished : Bool
  paused : Bool
  flushImmed : Bool
deriving Repr, DecidableEq

def OutArgStream.init : OutArgStream := ⟨[[]], 1, false, false, false, false, false, false⟩

/-- `self.ended[n]`: the array is `[null, e1, e2, e3]`, and any other index
reads as a falsy `undefined`. -/
def OutArgStream.endedAt (s : OutArgStream) : Nat → Bool
  | 1 => s.ended1
  | 2 => s.ended2
  | 3 => s.ended3
  | _ => false

def OutArgStream.setEnded (s : OutArgStream) : Nat → OutArgStream
  | 1 => { s with ended1 := true }
  | 2 => { s with ended2 := true }
  | 3 => { s with ended3 := true }
  | _ => s

/-- Update the last element of the pending frame (`self.frame[self.frame.length - 1]`);
the pending frame is never empty (it is created as `[Buffer(0)]` and only
ever grows until a flush resets it to `[Buffer(0)]`). -/
def updLast : FrameGroup → (Chunk → Chunk) → FrameGroup
  | [], _ => []
  | [x], g => [g x]
  | x :: y :: rest, g => x :: updLast (y :: rest) g

/-- `OutArgStream.prototype._appendFrameChunk`: coalesce a chunk into the
last pending-frame slot (`Buffer.concat` when both are non-empty, otherwise
keep whichever is non-empty). -/
def OutArgStream.appendFrameChunk (s : OutArgStream) (c : Chunk) : OutArgStream :=
  { s with frame :=
      updLast s.frame (fun buf =>
        if buf.length ≠ 0 then (if c.length ≠ 0 then buf ++ c else buf) else c) }

/-- The auto-advance loop at the end of `_handleFrameChunk`:
`while (ended[currentArgN]) { if (++currentArgN <= 3) frame.push(Buffer(0)); }`.
Fuel 4 suffices from any cursor value ≥ 1 because `endedAt` is false for
every index ≥ 4, so the loop runs at most three times. -/
def OutArgStream.autoAdvance : Nat → OutArgStream → OutArgStream
  | 0, s => s
  | fuel + 1, s =>
    if s.endedAt s.currentArgN then
      OutArgStream.autoAdvance fuel
        { s with currentArgN := s.currentArgN + 1,
                 frame := if s.currentArgN + 1 ≤ 3 then s.frame ++ [[]] else s.frame }
    else s

/-- `OutArgStream.prototype._deferFlushParts`: schedule a deferred flush
unless one is already scheduled or the stream is paused. -/
def OutArgStream.deferFlushParts (s : OutArgStream) : OutArgStream :=
  if !s.flushImmed && !s.paused then { s with flushImmed := true } else s

/-- `OutArgStream.prototype._flushParts`: clear any scheduled flush, bail
out when paused or when finished with a non-last flush, otherwise swap the
pending frame for a fresh `[Buffer(0)]` and emit the old one. -/
def OutArgStream.flushParts (s : OutArgStream) (isLast : Bool) : OutArgStream × List Emit :=
  let s1 : OutArgStream := { s with flushImmed := false }
  if s1.paused then (s1, [])
  else if s1.finished && !isLast then (s1, [])
  else
    let fr := s1.frame
    let s2 : OutArgStream := { s1 with frame := [[]] }
    if fr.length ≠ 0 then (s2, [(fr, isLast)]) else (s2, [])

/-- `OutArgStream.prototype._maybeFlush`. -/
def OutArgStream.maybeFlush (s : OutArgStream) : OutArgStream × List Emit :=
  if s.finished && s.endedAt 1 && s.endedAt 2 && s.endedAt 3 then
    s.flushParts true
  else if 1 < s.frame.length || ((s.frame.headD []).length ≠ 0) then
    (s.deferFlushParts, [])
  else (s, [])

/-- The `while (++self.currentArgN < n) self.frame.push(Buffer(0))` gap
padding of the `n > currentArgN` data path, followed by no push of the
chunk itself (the caller pushes it): the cursor jumps to `n` and
`n - currentArgN - 1` empty placeholders are appended. -/
def OutArgStream.pushUpTo (s : OutArgStream) (n : Nat) : OutArgStream :=
  { s with currentArgN := n,
           frame := s.frame ++ List.replicate (n - s.currentArgN - 1) ([] : Chunk) }

/-- The auto-advance plus flush decision shared by every fall-through path
of `_handleFrameChunk`. -/
def OutArgStream.afterChunk (s : OutArgStream) : OutArgStream × List Emit :=
  (OutArgStream.autoAdvance 4 s).maybeFlush

/-- `OutArgStream.prototype._handleFrameChunk` for argument `n` with
`chunk` (`none` models the JS `null` end-of-slot sentinel).  Returns the
new state, the `frame` events emitted, and the `error` event emitted, if
any.  The `n < currentArgN` paths and the `n > currentArgN` null path
return early, skipping the auto-advance and flush decision. -/
def OutArgStream.handleFrameChunk (s : OutArgStream) (n : Nat) (chunk : Option Chunk) :
    OutArgStream × List Emit × Option OutErr :=
  if n < s.currentArgN then
    match chunk with
    | none => (s.setEnded n, [], none)
    | some c => (s, [], some (.outOfOrder s.currentArgN n c))
  else if s.currentArgN < n then
    match chunk with
    | none => (s.setEnded n, [], none)
    | some c =>
      let s1 := s.pushUpTo n
      let s2 : OutArgStream := { s1 with frame := s1.frame ++ [c] }
      let r := s2.afterChunk
      (r.1, r.2, none)
  else
    match chunk with
    | none =>
      let r := (s.setEnded n).afterChunk
      (r.1, r.2, none)
    | some c =>
      let r := (s.appendFrameChunk c).afterChunk
      (r.1, r.2, none)

/-- Driver-visible events of an `OutArgStream`: a `data` event from slot
`n` (the application wrote `c`), an `end` event from slot `n`, `pause()`,
`resume()`, and the firing of the scheduled `setImmediate` flush. -/
inductive OutAct
  | data (n : Nat) (c : Chunk)
  | endA (n : Nat)
  | pause
  | resume
  | tick
deriving Repr, DecidableEq

/-- One driver event.  `endA 3` models the `onArg3End` listener: handle the
null sentinel, flush the last frame unless paused, then set `finished`.
`pause` models `pause()`: set the flag and cancel any scheduled flush.
`resume` models `resume()`: clear the flag and re-attempt the flush
decision.  `tick` fires the scheduled deferred flush, if one is scheduled. -/
def OutArgStream.step (s : OutArgStream) : OutAct → OutArgStream × List Emit × Option OutErr
  | .data n c => s.handleFrameChunk n (some c)
  | .endA n =>
    if n = 3 then
      match s.handleFrameChunk 3 none with
      | (s1, f1, e1) =>
        let r2 := if !s1.paused then s1.flushParts true else (s1, [])
        ({ r2.1 with finished := true }, f1 ++ r2.2, e1)
    else s.handleFrameChunk n none
  | .pause => ({ s with paused := true, flushImmed := false }, [], none)
  | .resume =>
    let r := ({ s with paused := false } : OutArgStream).maybeFlush
    (r.1, r.2, none)
  | .tick =>
    if s.flushImmed then
      let r := s.flushParts false
      (r.1, r.2, none)
    else (s, [], none)

/-- Run a list of driver events, collecting emitted frames and errors. -/
def OutArgStream.runOut (s : OutArgStream) : List OutAct → OutArgStream × List Emit × List OutErr
  | [] => (s, [], [])
  | a :: rest =>
    match s.step a with
    | (s1, f1, e1) =>
      match s1.runOut rest with
      | (s2, f2, e2) => (s2, f1 ++ f2, e1.toList ++ e2)

/-- N same-slot writes delivered back to back within one scheduling tick
(no intervening tick can fire, so only the states are chained). -/
def OutArgStream.writeMany (s : OutArgStream) (n : Nat) (cs : List Chunk) : OutArgStream :=
  cs.foldl (fun st c => (st.handleFrameChunk n (some c)).1) s

/-- The auto-advance loop as the specification sentence words it: "while
`ended[currentArgN]` is true and `currentArgN ≤ 3`, increment `currentArgN`
and push an empty placeholder chunk" — i.e. with the push unconditional in
the loop body.  Kept separate so it can be compared with the source's loop
(`OutArgStream.autoAdvance`), which pushes only when the incremented
cursor is still ≤ 3. -/
def specAutoAdvance : Nat → OutArgStream → OutArgStream
  | 0, s => s
  | fuel + 1, s =>
    if s.endedAt s.currentArgN ∧ s.currentArgN ≤ 3 then
      specAutoAdvance fuel
        { s with currentArgN := s.currentArgN + 1, frame := s.frame ++ [[]] }
    else s

/-- The first index ≥ `c` at which `s.ended[...]` is falsy; since
`endedAt` is false from index 4 on, four probes suffice for any `c ≥ 1`. -/
def OutArgStream.firstNotEnded (s : OutArgStream) (c : Nat) : Nat :=
  if s.endedAt c then
    if s.endedAt (c + 1) then
      if s.endedAt (c + 2) then
        if s.endedAt (c + 3) then c + 4 else c + 3
      else c + 2
    else c + 1
  else c

/-! ## Ideal reassembly semantics

`reGroup`/`reRun` give the cursor semantics of demultiplexing a sequence of
frame groups: position `i` of a group feeds slot `cursor + i` (0-based) and
the cursor afterwards sits at the group's last position.  A bridge lemma
below shows a successful `reRun` agrees exactly with the `InArgStream`
embedding; the mux round-trip invariant is stated against `reRun`. -/

structure ReState where
  s1 : List Nat
  s2 : List Nat
  s3 : List Nat
deriving Repr, DecidableEq

def ReState.init : ReState := ⟨[], [], []⟩

def ReState.put (a : ReState) (j : Nat) (c : Chunk) : ReState :=
  if j = 0 then { a with s1 := a.s1 ++ c }
  else if j = 1 then { a with s2 := a.s2 ++ c }
  else if j = 2 then { a with s3 := a.s3 ++ c }
  else a

def reGroup : Nat → ReState → FrameGroup → Option (Nat × ReState)
  | c, a, [] => some (c, a)
  | c, a, x :: rest =>
    if 3 ≤ c then none
    else
      match rest with
      | [] => some (c, a.put c x)
      | _ :: _ => reGroup (c + 1) (a.put c x) rest

def reRun : Nat → ReState → List FrameGroup → Option (Nat × ReState)
  | c, a, [] => some (c, a)
  | c, a, g :: rest =>
    match reGroup c a g with
    | some (c1, a1) => reRun c1 a1 rest
    | none => none

/-- The `InArgStream` state reached after successfully demultiplexing to
ideal state `(c, a)`: slot `j` is started iff it received bytes, ended iff
the cursor has passed it, and the finish count equals the cursor. -/
def mkIn (c : Nat) (a : ReState) : InArgStream :=
  { args := { arg1 := ⟨!a.s1.isEmpty, decide (0 < c), a.s1⟩,
              arg2 := ⟨!a.s2.isEmpty, decide (1 < c), a.s2⟩,
              arg3 := ⟨!a.s3.isEmpty, decide (2 < c), a.s3⟩ },
    iStream := c, numFinished := c, finished := false }

/-! ## Driver scripts for the round trip -/

def OutAct.isCtl : OutAct → Bool
  | .pause => true
  | .resume => true
  | .tick => true
  | _ => false

/-- The `data`/`end` events of a script, in order. -/
def payload (acts : List OutAct) : List OutAct := acts.filter (fun a => !a.isCtl)

/-- Application writes are non-empty buffers (node streams deliver a
`data` event per written chunk; empty writes produce no `data` event). -/
def ChunksOK (cs : List Chunk) : Prop := ∀ c ∈ cs, c ≠ ([] : Chunk)

/-- A driver script writing `b1, b2, b3` through the out stream: the
`data`/`end` subsequence writes `b1` to slot 1 in some chunking, ends slot
1, then likewise slots 2 and 3; `pause`/`resume`/`tick` events may appear
anywhere. -/
def DriverScript (b1 b2 b3 : List Nat) (acts : List OutAct) : Prop :=
  ∃ c1s c2s c3s : List Chunk,
    ChunksOK c1s ∧ ChunksOK c2s ∧ ChunksOK c3s ∧
    c1s.flatten = b1 ∧ c2s.flatten = b2 ∧ c3s.flatten = b3 ∧
    payload acts =
      c1s.map (OutAct.data 1) ++ [OutAct.endA 1] ++
      c2s.map (OutAct.data 2) ++ [OutAct.endA 2] ++
      c3s.map (OutAct.data 3) ++ [OutAct.endA 3]

/-- Invariant of the out stream while argument `p ∈ {1,2,3}` is the one
being assembled and `dd` is what has been delivered so far: the emitted
groups reassemble to a prefix of `dd` with the pending frame supplying the
rest, the frame spans slots up to `p`, and the bookkeeping flags match. -/
def muxInv (p : Nat) (dd : ReState) (gs : List Emit) (s : OutArgStream) : Prop :=
  s.currentArgN = p ∧
  s.ended1 = decide (1 < p) ∧
  s.ended2 = decide (2 < p) ∧
  s.ended3 = false ∧
  s.finished = false ∧
  (s.flushImmed = true → s.paused = false) ∧
  1 ≤ p ∧ p ≤ 3 ∧
  ∃ c0 a0, reRun 0 ReState.init (gs.map Prod.fst) = some (c0, a0) ∧
    c0 + s.frame.length = p ∧
    reGroup c0 a0 s.frame = some (p - 1, dd)

/-- Invariant after the call has logically finished (`end` seen on all
three slots): if unpaused the final `isLast` group is out and the emitted
groups reassemble to the full `(b1,b2,b3)`; if paused the pending frame
still holds the tail and will be flushed on resume. -/
def doneInv (full : ReState) (gs : List Emit) (s : OutArgStream) : Prop :=
  s.currentArgN = 4 ∧
  s.ended1 = true ∧ s.ended2 = true ∧ s.ended3 = true ∧
  s.finished = true ∧ s.flushImmed = false ∧
  (s.paused = true →
    ∃ c0 a0, reRun 0 ReState.init (gs.map Prod.fst) = some (c0, a0) ∧
      c0 + s.frame.length = 3 ∧
      reGroup c0 a0 s.frame = some (2, full)) ∧
  (s.paused = false →
    gs.getLast?.map Prod.snd = some true ∧
    reRun 0 ReState.init (gs.map Prod.fst) = some (2, full) ∧
    s.frame = [[]])

/-! ## Basic lemmas -/

theorem updLast_length : ∀ (f : FrameGroup) (g : Chunk → Chunk), (updLast f g).length = f.length
  | [], _ => rfl
  | [_], _ => rfl
  | _ :: y :: rest, g => by
    simp only [updLast, List.length_cons]
    exact congrArg (· + 1) (updLast_length (y :: rest) g)

theorem updLast_congr : ∀ (f : FrameGroup) (g1 g2 : Chunk → Chunk),
    (∀ x, g1 x = g2 x) → updLast f g1 = updLast f g2
  | [], _, _, _ => rfl
  | [x], g1, g2, h => by simp [updLast, h x]
  | _ :: y :: rest, g1, g2, h => by
    simp only [updLast, List.cons.injEq, true_and]
    exact updLast_congr (y :: rest) g1 g2 h

theorem updLast_append_nil : ∀ (f : FrameGroup), updLast f (· ++ ([] : Chunk)) = f
  | [] => rfl
  | [x] => by simp [updLast]
  | _ :: y :: rest => by
    simp only [updLast, List.cons.injEq, true_and]
    exact updLast_append_nil (y :: rest)

theorem updLast_ne_nil (f : FrameGroup) (g : Chunk → Chunk) (h : f ≠ []) :
    updLast f g ≠ [] := by
  intro hc
  have := updLast_length f g
  rw [hc] at this
  exact h (List.eq_nil_of_length_eq_zero this.symm)

theorem updLast_cons_of_ne (x : Chunk) (L : FrameGroup) (g : Chunk → Chunk) (h : L ≠ []) :
    updLast (x :: L) g = x :: updLast L g := by
  cases L with
  | nil => exact absurd rfl h
  | cons y rest => rfl

theorem updLast_append_append : ∀ (f : FrameGroup) (c d : Chunk),
    updLast (updLast f (· ++ c)) (· ++ d) = updLast f (· ++ (c ++ d))
  | [], _, _ => rfl
  | [x], c, d => by simp [updLast]
  | x :: y :: rest, c, d => by
    simp only [updLast]
    rw [updLast_cons_of_ne x _ _ (updLast_ne_nil (y :: rest) _ (by simp))]
    simp only [List.cons.injEq, true_and]
    exact updLast_append_append (y :: rest) c d

theorem appendFrameChunk_eq (s : OutArgStream) (c : Chunk) :
    s.appendFrameChunk c = { s with frame := updLast s.frame (· ++ c) } := by
  unfold OutArgStream.appendFrameChunk
  congr 1
  apply updLast_congr
  intro x
  rcases x with _ | ⟨a, x⟩ <;> rcases c with _ | ⟨b, c⟩ <;> simp

theorem autoAdvance_of_not_ended (fuel : Nat) (s : OutArgStream)
    (h : s.endedAt s.currentArgN = false) :
    OutArgStream.autoAdvance fuel s = s := by
  cases fuel with
  | zero => rfl
  | succ fuel => simp [OutArgStream.autoAdvance, h]

theorem endedAt_cases (s : OutArgStream) (m : Nat) (h : s.endedAt m = true) :
    m = 1 ∨ m = 2 ∨ m = 3 := by
  rcases m with _ | _ | _ | _ | m
  · exact absurd h (by simp [OutArgStream.endedAt])
  · exact Or.inl rfl
  · exact Or.inr (Or.inl rfl)
  · exact Or.inr (Or.inr rfl)
  · exact absurd h (by simp [OutArgStream.endedAt])

/-! ## C2 — sequential boundary rule -/

/-- C2: for every `ArgStream` pair, the first write to argument slot `k+1`
(`k ∈ {1,2}`; 0-based stream index `k`) ends argument slot `k` (0-based
index `k-1`) if it was not already ended, and leaves slot `k` entirely
unchanged when it was already ended. -/
theorem argStream_boundary_rule (a : ArgsState) (k : Nat) (c : Chunk)
    (hk : k = 1 ∨ k = 2) (hs : (a.slotAt k).started = false) :
    ((a.writeSlot k c).slotAt (k - 1)).ended = true ∧
    ((a.slotAt (k - 1)).ended = true →
      (a.writeSlot k c).slotAt (k - 1) = a.slotAt (k - 1)) := by
  obtain ⟨a1, a2, a3⟩ := a
  rcases hk with h | h <;> subst h
  · simp only [ArgsState.slotAt] at hs
    by_cases he : a1.ended <;>
      simp [ArgsState.writeSlot, ArgsState.slotAt, ArgsState.setAt, StreamArg.endMark, hs, he]
  · simp only [ArgsState.slotAt] at hs
    by_cases he : a2.ended <;>
      simp [ArgsState.writeSlot, ArgsState.slotAt, ArgsState.setAt, StreamArg.endMark, hs, he]

theorem argStream_boundary_rule_witness :
    ((ArgsState.init.writeSlot 1 [5]).slotAt 0).ended = true :=
  (argStream_boundary_rule ArgsState.init 1 [5] (Or.inl rfl) (by decide)).1

/-! ## C3 — handleFrame after finished -/

/-- C3 counterexample: after the stream has finished, `handleFrame` with
the `null` sentinel does **not** fail — the `parts === null` branch returns
before the `finished` check — contradicting the claim that every call after
`finished`, including the null sentinel, fails with `StreamAlreadyFinished`. -/
theorem handleFrame_null_after_finished_ok :
    ((InArgStream.init.handleFrame none).1.finished = true) ∧
    (((InArgStream.init.handleFrame none).1.handleFrame none).2 = none) := by decide

/-- C3 amended: after the stream has finished, `handleFrame` with any
**non-null** frame group fails with `StreamAlreadyFinished` and leaves the
state unchanged; the null sentinel instead returns without error. -/
theorem handleFrame_after_finished (s : InArgStream) (ps : List Chunk)
    (h : s.finished = true) :
    s.handleFrame (some ps) = (s, some InErr.alreadyFinished) := by
  simp [InArgStream.handleFrame, h]

theorem handleFrame_after_finished_witness :
    (InArgStream.init.handleFrame none).1.handleFrame (some [[1]]) =
      ((InArgStream.init.handleFrame none).1, some InErr.alreadyFinished) :=
  handleFrame_after_finished _ _ (by decide)

/-! ## C4 / C10 — frame arity overflow -/

theorem endIdx_iStream (s : InArgStream) (k : Nat) : (s.endIdx k).iStream = s.iStream := by
  unfold InArgStream.endIdx
  split <;> rfl

theorem writeIdx_iStream (s : InArgStream) (k : Nat) (x : Chunk) :
    (s.writeIdx k x).iStream = s.iStream := by
  unfold InArgStream.writeIdx InArgStream.endIdx
  repeat' split
  all_goals rfl

theorem advance_iStream (s : InArgStream) (h : s.iStream < 3) :
    s.advance.iStream = s.iStream + 1 := by
  unfold InArgStream.advance
  rw [if_pos h]

theorem consume_overflow : ∀ (ps : List Chunk) (s : InArgStream),
    3 - s.iStream < ps.length → (s.consume ps).2 = some InErr.arity := by
  intro ps
  induction ps with
  | nil => intro s h; simp at h
  | cons x rest ih =>
    intro s h
    unfold InArgStream.consume
    by_cases h3 : 3 ≤ s.iStream
    · simp [h3]
    · have hlt : s.iStream < 3 := Nat.lt_of_not_le h3
      simp only [h3, if_false]
      have hrest : rest ≠ [] := by
        intro hre
        subst hre
        simp only [List.length_cons, List.length_nil] at h
        omega
      cases rest with
      | nil => exact absurd rfl hrest
      | cons y rest2 =>
        simp only []
        apply ih
        have hw : (if x.length = 0 then s else s.writeIdx s.iStream x).iStream = s.iStream := by
          split
          · rfl
          · exact writeIdx_iStream s s.iStream x
        have ha : (if x.length = 0 then s else s.writeIdx s.iStream x).advance.iStream
            = s.iStream + 1 := by
          rw [advance_iStream _ (by rw [hw]; exact hlt), hw]
        rw [ha]
        simp only [List.length_cons] at h ⊢
        omega

/-- C4: a non-null frame group whose chunk positions outrun the remaining
argument slots (the cursor reaches exhausted before all positions are
consumed, i.e. the group is longer than `3 - iStream`) makes `handleFrame`
fail with the arity error.  The `finished = false` hypothesis selects the
calls that reach the consuming loop at all (a finished stream fails earlier
with `StreamAlreadyFinished`, see the C3 theorems). -/
theorem handleFrame_arity (s : InArgStream) (ps : List Chunk)
    (hfin : s.finished = false) (hov : 3 - s.iStream < ps.length) :
    (s.handleFrame (some ps)).2 = some InErr.arity := by
  simp only [InArgStream.handleFrame, hfin, if_false]
  exact consume_overflow ps s hov

theorem handleFrame_arity_witness :
    (InArgStream.init.handleFrame (some [[1], [2], [3], [4]])).2 = some InErr.arity :=
  handleFrame_arity InArgStream.init [[1], [2], [3], [4]] rfl (by decide)

theorem slotAt_setAt_self (a : ArgsState) (t : StreamArg) (k : Nat) (h : k < 3) :
    (a.setAt k t).slotAt k = t := by
  rcases k with _ | _ | _ | k
  · rfl
  · rfl
  · rfl
  · omega

theorem slotAt_setAt_ne (a : ArgsState) (t : StreamArg) (k j : Nat) (h : j ≠ k) :
    (a.setAt k t).slotAt j = a.slotAt j := by
  rcases k with _ | _ | _ | k <;> rcases j with _ | _ | _ | j <;>
    simp_all [ArgsState.setAt, ArgsState.slotAt]

theorem writeIdx_slots (s : InArgStream) (x : Chunk) (hi : s.iStream < 3)
    (hb : ∀ k, k < s.iStream → (s.args.slotAt k).ended = true) :
    ((s.writeIdx s.iStream x).args.slotAt s.iStream).ended = (s.args.slotAt s.iStream).ended ∧
    ((s.writeIdx s.iStream x).args.slotAt s.iStream).data = (s.args.slotAt s.iStream).data ++ x ∧
    (∀ j, j ≠ s.iStream → (s.writeIdx s.iStream x).args.slotAt j = s.args.slotAt j) := by
  unfold InArgStream.writeIdx
  have hwire :
      (if (s.args.slotAt s.iStream).started then s
       else if s.iStream = 1 then s.endIdx 0
       else if s.iStream = 2 then s.endIdx 1
       else s) = s := by
    split
    · rfl
    · rcases hi' : s.iStream with _ | _ | _ | k
      · rfl
      · have h0 := hb 0 (by omega)
        simp [InArgStream.endIdx, h0]
      · have h1 := hb 1 (by omega)
        simp [InArgStream.endIdx, h1]
      · omega
  rw [hwire]
  refine ⟨?_, ?_, ?_⟩
  · rw [slotAt_setAt_self _ _ _ hi]
  · rw [slotAt_setAt_self _ _ _ hi]
  · intro j hj
    exact slotAt_setAt_ne _ _ _ _ hj

theorem advance_slots (s : InArgStream) (hi : s.iStream < 3) :
    ((s.advance).args.slotAt s.iStream).ended = true ∧
    ((s.advance).args.slotAt s.iStream).data = (s.args.slotAt s.iStream).data ∧
    (∀ j, j ≠ s.iStream → (s.advance).args.slotAt j = s.args.slotAt j) := by
  unfold InArgStream.advance InArgStream.endIdx
  rw [if_pos hi]
  split
  · rename_i he
    exact ⟨he, rfl, fun j _ => rfl⟩
  · refine ⟨?_, ?_, ?_⟩
    · rw [slotAt_setAt_self _ _ _ hi]; rfl
    · rw [slotAt_setAt_self _ _ _ hi]; rfl
    · intro j hj
      exact slotAt_setAt_ne _ _ _ _ hj

theorem consume_overflow_state : ∀ (ps : List Chunk) (s : InArgStream),
    (∀ k, k < s.iStream → (s.args.slotAt k).ended = true) →
    3 - s.iStream < ps.length →
    (∀ k, k < s.iStream → (s.consume ps).1.args.slotAt k = s.args.slotAt k) ∧
    (∀ k, s.iStream ≤ k → k < 3 →
      ((s.consume ps).1.args.slotAt k).ended = true ∧
      ((s.consume ps).1.args.slotAt k).data
        = (s.args.slotAt k).data ++ ps.getD (k - s.iStream) []) := by
  intro ps
  induction ps with
  | nil => intro s hb h; simp at h
  | cons x rest ih =>
    intro s hb h
    unfold InArgStream.consume
    by_cases h3 : 3 ≤ s.iStream
    · refine ⟨fun k _ => by simp [h3], fun k hk1 hk2 => absurd (lt_of_le_of_lt hk1 hk2) (by omega)⟩
    · have hlt : s.iStream < 3 := Nat.lt_of_not_le h3
      simp only [h3, if_false]
      cases rest with
      | nil =>
        exfalso
        simp only [List.length_cons, List.length_nil] at h
        omega
      | cons y rest2 =>
        simp only []
        set s1 := (if x.length = 0 then s else s.writeIdx s.iStream x) with hs1
        have hs1i : s1.iStream = s.iStream := by
          rw [hs1]; split
          · rfl
          · exact writeIdx_iStream s s.iStream x
        have hs1self : (s1.args.slotAt s.iStream).ended = (s.args.slotAt s.iStream).ended ∧
            (s1.args.slotAt s.iStream).data = (s.args.slotAt s.iStream).data ++ x := by
          rw [hs1]; split
          · rename_i hx
            have : x = [] := List.eq_nil_of_length_eq_zero hx
            simp [this]
          · exact ⟨(writeIdx_slots s x hlt hb).1, (writeIdx_slots s x hlt hb).2.1⟩
        have hs1ne : ∀ j, j ≠ s.iStream → s1.args.slotAt j = s.args.slotAt j := by
          intro j hj
          rw [hs1]; split
          · rfl
          · exact (writeIdx_slots s x hlt hb).2.2 j hj
        set s2 := s1.advance with hs2
        have hadv := advance_slots s1 (by rw [hs1i]; exact hlt)
        have hs2i : s2.iStream = s.iStream + 1 := by
          rw [hs2, advance_iStream s1 (by rw [hs1i]; exact hlt), hs1i]
        have hs2self : (s2.args.slotAt s.iStream).ended = true ∧
            (s2.args.slotAt s.iStream).data = (s.args.slotAt s.iStream).data ++ x := by
          rw [hs1i] at hadv
          exact ⟨hadv.1, hadv.2.1.trans hs1self.2⟩
        have hs2ne : ∀ j, j ≠ s.iStream → s2.args.slotAt j = s.args.slotAt j := by
          intro j hj
          rw [hs1i] at hadv
          exact (hadv.2.2 j hj).trans (hs1ne j hj)
        have hb2 : ∀ k, k < s2.iStream → (s2.args.slotAt k).ended = true := by
          intro k hk
          rw [hs2i] at hk
          rcases Nat.lt_succ_iff_lt_or_eq.mp hk with hk' | hk'
          · rw [hs2ne k (by omega)]
            exact hb k hk'
          · subst hk'
            exact hs2self.1
        have hov2 : 3 - s2.iStream < (y :: rest2).length := by
          rw [hs2i]
          simp only [List.length_cons] at h ⊢
          omega
        obtain ⟨P1, P2⟩ := ih s2 hb2 hov2
        rw [hs2i] at P1 P2
        constructor
        · intro k hk
          rw [P1 k (by omega), hs2ne k (by omega)]
        · intro k hk1 hk2
          rcases Nat.eq_or_lt_of_le hk1 with hk' | hk'
          · subst hk'
            rw [P1 s.iStream (by omega)]
            refine ⟨hs2self.1, ?_⟩
            rw [hs2self.2]
            simp [Nat.sub_self]
          · obtain ⟨Q1, Q2⟩ := P2 k (by omega) hk2
            refine ⟨Q1, ?_⟩
            rw [Q2, hs2ne k (by omega)]
            have : k - s.iStream = (k - (s.iStream + 1)) + 1 := by omega
            rw [this]
            rfl

/-- C10: when `handleFrame` fails with the arity error on a too-long frame
group, the failure is not atomic — every chunk at a position before the
overflow has already been written to its slot (its data is extended by that
chunk) and every slot from the cursor on has been ended by the `advance`
calls made during the loop; the pre-call state is not restored.  The
hypothesis that slots behind the cursor are already ended is the reachable
state invariant of the demux (`advance` ends each slot it passes). -/
theorem handleFrame_arity_not_atomic (s : InArgStream) (ps : List Chunk)
    (hfin : s.finished = false)
    (hb : ∀ k, k < s.iStream → (s.args.slotAt k).ended = true)
    (hov : 3 - s.iStream < ps.length) :
    (s.handleFrame (some ps)).2 = some InErr.arity ∧
    ∀ k, s.iStream ≤ k → k < 3 →
      ((s.handleFrame (some ps)).1.args.slotAt k).ended = true ∧
      ((s.handleFrame (some ps)).1.args.slotAt k).data
        = (s.args.slotAt k).data ++ ps.getD (k - s.iStream) [] := by
  simp only [InArgStream.handleFrame, hfin, if_false]
  exact ⟨consume_overflow ps s hov, (consume_overflow_state ps s hb hov).2⟩

theorem handleFrame_arity_not_atomic_witness :
    (InArgStream.init.handleFrame (some [[1], [2], [3], [4]])).2 = some InErr.arity ∧
    ((InArgStream.init.handleFrame (some [[1], [2], [3], [4]])).1.args.slotAt 2).ended = true ∧
    ((InArgStream.init.handleFrame (some [[1], [2], [3], [4]])).1.args.slotAt 2).data = [3] := by
  have h := handleFrame_arity_not_atomic InArgStream.init [[1], [2], [3], [4]]
    rfl (by intro k hk; rw [show InArgStream.init.iStream = 0 from rfl] at hk; omega)
    (by decide)
  refine ⟨h.1, (h.2 2 (by decide) (by decide)).1, ?_⟩
  have h2 := (h.2 2 (by decide) (by decide)).2
  simpa using h2

/-! ## C5 — out-of-order data chunk rejection -/

/-- C5: a non-null data chunk arriving for an argument index `n` strictly
behind the assembly cursor makes `_handleFrameChunk` emit the
`ArgChunkOutOfOrder` error carrying `{current, got}` (and the chunk), emit
no frame, and return with the state — pending frame, cursor and ended
flags — completely unchanged. -/
theorem out_of_order_chunk_rejected (s : OutArgStream) (n : Nat) (c : Chunk)
    (h : n < s.currentArgN) :
    s.handleFrameChunk n (some c) = (s, [], some (OutErr.outOfOrder s.currentArgN n c)) := by
  simp [OutArgStream.handleFrameChunk, h]

theorem out_of_order_chunk_rejected_witness :
    ((OutArgStream.init.step (OutAct.endA 1)).1.handleFrameChunk 1 (some [9])) =
      ((OutArgStream.init.step (OutAct.endA 1)).1, [],
        some (OutErr.outOfOrder 2 1 [9])) := by
  have h := out_of_order_chunk_rejected (OutArgStream.init.step (OutAct.endA 1)).1 1 [9]
    (by decide)
  rw [h]
  have : (OutArgStream.init.step (OutAct.endA 1)).1.currentArgN = 2 := by decide
  rw [this]

/-! ## C6 — same-tick coalescing -/

theorem endedAt_ext (s t : OutArgStream) (h1 : s.ended1 = t.ended1)
    (h2 : s.ended2 = t.ended2) (h3 : s.ended3 = t.ended3) (m : Nat) :
    s.endedAt m = t.endedAt m := by
  unfold OutArgStream.endedAt
  rcases m with _ | _ | _ | _ | m <;> simp [h1, h2, h3]

theorem maybeFlush_defer (s : OutArgStream)
    (hno : (s.finished && s.endedAt 1 && s.endedAt 2 && s.endedAt 3) = false) :
    (s.maybeFlush).2 = [] ∧
    (s.maybeFlush).1.frame = s.frame ∧
    (s.maybeFlush).1.currentArgN = s.currentArgN ∧
    (s.maybeFlush).1.ended1 = s.ended1 ∧
    (s.maybeFlush).1.ended2 = s.ended2 ∧
    (s.maybeFlush).1.ended3 = s.ended3 ∧
    (s.maybeFlush).1.finished = s.finished ∧
    (s.maybeFlush).1.paused = s.paused ∧
    ((s.maybeFlush).1.flushImmed = true → s.flushImmed = true ∨ s.paused = false) := by
  unfold OutArgStream.maybeFlush OutArgStream.deferFlushParts
  simp only [hno, Bool.false_eq_true, if_false]
  split
  · split
    · rename_i hdef
      simp only [Bool.and_eq_true, Bool.not_eq_true'] at hdef
      exact ⟨rfl, rfl, rfl, rfl, rfl, rfl, rfl, rfl, fun _ => Or.inr hdef.2⟩
    · exact ⟨rfl, rfl, rfl, rfl, rfl, rfl, rfl, rfl, fun h => Or.inl h⟩
  · exact ⟨rfl, rfl, rfl, rfl, rfl, rfl, rfl, rfl, fun h => Or.inl h⟩

theorem handleFrameChunk_data (s : OutArgStream) (n : Nat) (c : Chunk)
    (hn : n = 1 ∨ n = 2 ∨ n = 3) (hcur : s.currentArgN = n) (he : s.endedAt n = false) :
    (s.handleFrameChunk n (some c)).1.frame = updLast s.frame (· ++ c) ∧
    (s.handleFrameChunk n (some c)).1.currentArgN = s.currentArgN ∧
    (s.handleFrameChunk n (some c)).1.ended1 = s.ended1 ∧
    (s.handleFrameChunk n (some c)).1.ended2 = s.ended2 ∧
    (s.handleFrameChunk n (some c)).1.ended3 = s.ended3 ∧
    (s.handleFrameChunk n (some c)).1.finished = s.finished ∧
    (s.handleFrameChunk n (some c)).1.paused = s.paused ∧
    ((s.handleFrameChunk n (some c)).1.flushImmed = true →
      s.flushImmed = true ∨ s.paused = false) ∧
    (s.handleFrameChunk n (some c)).2.1 = [] ∧
    (s.handleFrameChunk n (some c)).2.2 = none := by
  have hlt : ¬ (n < s.currentArgN) := by omega
  have hgt : ¬ (s.currentArgN < n) := by omega
  unfold OutArgStream.handleFrameChunk
  simp only [hlt, hgt, if_false]
  rw [appendFrameChunk_eq]
  unfold OutArgStream.afterChunk
  set s1 : OutArgStream := { s with frame := updLast s.frame (· ++ c) } with hs1
  have hee : ∀ m, s1.endedAt m = s.endedAt m := fun m => endedAt_ext s1 s rfl rfl rfl m
  have hcur1 : s1.currentArgN = n := hcur
  rw [autoAdvance_of_not_ended 4 s1 (by rw [hcur1, hee n]; exact he)]
  have hno : (s1.finished && s1.endedAt 1 && s1.endedAt 2 && s1.endedAt 3) = false := by
    rcases hn with h | h | h <;> subst h <;>
      simp only [hee] <;> rw [he] <;> simp
  have hm := maybeFlush_defer s1 hno
  obtain ⟨h1, h2, h3, h4, h5, h6, h7, h8, h9⟩ := hm
  exact ⟨h2, h3, h4, h5, h6, h7, h8, h9, h1, trivial⟩

/-- C6: N ≥ 1 writes to the same argument slot `n` arriving within one
scheduling tick (the assembly cursor sits at `n` and slot `n` has not
ended, so no flush can run in between) leave the pending frame with the
same number of chunks and the last chunk extended by the concatenation of
all written byte sequences, in write order — one coalesced chunk, not N
separate chunks. -/
theorem writeMany_coalesces (s : OutArgStream) (n : Nat) (cs : List Chunk)
    (hn : n = 1 ∨ n = 2 ∨ n = 3) (hcur : s.currentArgN = n) (he : s.endedAt n = false) :
    (s.writeMany n cs).frame = updLast s.frame (· ++ cs.flatten) ∧
    (s.writeMany n cs).frame.length = s.frame.length := by
  induction cs generalizing s with
  | nil =>
    refine ⟨?_, rfl⟩
    simp only [OutArgStream.writeMany, List.foldl_nil, List.flatten_nil]
    exact (updLast_append_nil s.frame).symm
  | cons c rest ih =>
    have h1 := handleFrameChunk_data s n c hn hcur he
    have hstep : s.writeMany n (c :: rest) = ((s.handleFrameChunk n (some c)).1).writeMany n rest := by
      simp [OutArgStream.writeMany]
    rw [hstep]
    have hcur' : (s.handleFrameChunk n (some c)).1.currentArgN = n := h1.2.1.trans hcur
    have he' : (s.handleFrameChunk n (some c)).1.endedAt n = false := by
      rw [endedAt_ext _ s h1.2.2.1 h1.2.2.2.1 h1.2.2.2.2.1 n]
      exact he
    obtain ⟨ihf, ihl⟩ := ih (s.handleFrameChunk n (some c)).1 hcur' he'
    constructor
    · rw [ihf, h1.1, updLast_append_append]
      rfl
    · rw [ihl, h1.1, updLast_length]

theorem writeMany_coalesces_witness :
    (OutArgStream.init.writeMany 1 [[1], [2, 3], [4]]).frame = [[1, 2, 3, 4]] ∧
    (OutArgStream.init.writeMany 1 [[1], [2, 3], [4]]).frame.length = 1 := by
  have h := writeMany_coalesces OutArgStream.init 1 [[1], [2, 3], [4]]
    (Or.inl rfl) rfl rfl
  exact ⟨by rw [h.1]; rfl, by rw [h.2]; rfl⟩

/-! ## C7 — auto-advance placeholder pushes -/

/-- C7 counterexample: from the reachable state with `currentArgN = 3` and
slots 1 and 2 ended, handling the end signal of slot 3 leaves the pending
frame with 3 chunks (the code's `if (++currentArgN <= 3)` skips the push on
the 3 → 4 increment), whereas the loop as the claim words it — push an
empty placeholder on every iteration with `ended[currentArgN]` true and
`currentArgN ≤ 3` — would leave 4 chunks. -/
theorem autoAdvance_boundary_counterexample :
    ((((OutArgStream.init.step (OutAct.endA 1)).1.step (OutAct.endA 2)).1.handleFrameChunk
        3 none).1.frame.length = 3) ∧
    ((specAutoAdvance 4
        (((OutArgStream.init.step (OutAct.endA 1)).1.step (OutAct.endA 2)).1.setEnded 3)).frame.length = 4) ∧
    (((OutArgStream.init.step (OutAct.endA 1)).1.step (OutAct.endA 2)).1.handleFrameChunk
        3 none).1.frame ≠
      (specAutoAdvance 4
        (((OutArgStream.init.step (OutAct.endA 1)).1.step (OutAct.endA 2)).1.setEnded 3)).frame := by
  decide

/-- C7 amended: after `_handleFrameChunk` handles a chunk or end signal,
the auto-advance loop increments `currentArgN` past every consecutive ended
slot and pushes an empty placeholder chunk only when the incremented cursor
is still ≤ 3; in particular the increment from 3 to 4 pushes nothing, so
the pending frame gains exactly `min t 3 - min cur 3` placeholders, where
`t` is the first not-ended index at or after the cursor. -/
theorem autoAdvance_push_boundary (s : OutArgStream) (h : 1 ≤ s.currentArgN) :
    OutArgStream.autoAdvance 4 s =
      { s with currentArgN := s.firstNotEnded s.currentArgN,
               frame := s.frame ++
                 List.replicate (min (s.firstNotEnded s.currentArgN) 3 - min s.currentArgN 3)
                   ([] : Chunk) } := by
  by_cases h0 : s.endedAt s.currentArgN = true
  · rcases endedAt_cases s _ h0 with hc | hc | hc <;>
      obtain ⟨f, cur, e1, e2, e3, fin, pz, fi⟩ := s <;>
      simp only [] at hc <;> subst hc <;>
      simp only [OutArgStream.endedAt] at h0 <;> subst h0
    · by_cases h2 : e2 <;> by_cases h3 : e3 <;>
        simp_all [OutArgStream.autoAdvance, OutArgStream.endedAt, OutArgStream.firstNotEnded,
          List.replicate, List.append_assoc]
    · by_cases h3 : e3 <;>
        simp_all [OutArgStream.autoAdvance, OutArgStream.endedAt, OutArgStream.firstNotEnded,
          List.replicate, List.append_assoc]
    · simp [OutArgStream.autoAdvance, OutArgStream.endedAt, OutArgStream.firstNotEnded,
        List.replicate]
  · have hfe : s.firstNotEnded s.currentArgN = s.currentArgN := by
      unfold OutArgStream.firstNotEnded
      rw [if_neg h0]
    rw [autoAdvance_of_not_ended 4 s (by simpa using h0), hfe]
    simp

theorem autoAdvance_push_boundary_witness :
    OutArgStream.autoAdvance 4
        (((OutArgStream.init.step (OutAct.endA 1)).1.step (OutAct.endA 2)).1.setEnded 3) =
      { (((OutArgStream.init.step (OutAct.endA 1)).1.step (OutAct.endA 2)).1.setEnded 3) with
          currentArgN := 4, frame := [[], [], []] } := by
  have h := autoAdvance_push_boundary
    (((OutArgStream.init.step (OutAct.endA 1)).1.step (OutAct.endA 2)).1.setEnded 3)
    (by decide)
  rw [h]
  decide

/-! ## C8 — pause / resume -/

theorem autoAdvance_fields (fuel : Nat) : ∀ s : OutArgStream,
    (OutArgStream.autoAdvance fuel s).ended1 = s.ended1 ∧
    (OutArgStream.autoAdvance fuel s).ended2 = s.ended2 ∧
    (OutArgStream.autoAdvance fuel s).ended3 = s.ended3 ∧
    (OutArgStream.autoAdvance fuel s).finished = s.finished ∧
    (OutArgStream.autoAdvance fuel s).paused = s.paused ∧
    (OutArgStream.autoAdvance fuel s).flushImmed = s.flushImmed := by
  induction fuel with
  | zero => intro s; exact ⟨rfl, rfl, rfl, rfl, rfl, rfl⟩
  | succ fuel ih =>
    intro s
    unfold OutArgStream.autoAdvance
    split
    · exact ih _
    · exact ⟨rfl, rfl, rfl, rfl, rfl, rfl⟩

theorem maybeFlush_paused (s : OutArgStream) (hp : s.paused = true) (hf : s.flushImmed = false) :
    (s.maybeFlush).2 = [] ∧ (s.maybeFlush).1.flushImmed = false ∧
    (s.maybeFlush).1.paused = true ∧ (s.maybeFlush).1.finished = s.finished ∧
    (s.maybeFlush).1.frame = s.frame := by
  refine ⟨?_, ?_, ?_, ?_, ?_⟩ <;>
  · unfold OutArgStream.maybeFlush OutArgStream.flushParts OutArgStream.deferFlushParts
    split
    · simp [hp]
    · split
      · simp [hp, hf]
      · simp [hp, hf]

theorem handleFrameChunk_paused (s : OutArgStream) (n : Nat) (chunk : Option Chunk)
    (hp : s.paused = true) (hf : s.flushImmed = false) :
    (s.handleFrameChunk n chunk).2.1 = [] ∧
    (s.handleFrameChunk n chunk).1.flushImmed = false ∧
    (s.handleFrameChunk n chunk).1.paused = true := by
  unfold OutArgStream.handleFrameChunk OutArgStream.afterChunk
  split
  · rcases chunk with _ | c
    · unfold OutArgStream.setEnded
      rcases n with _ | _ | _ | _ | n <;> exact ⟨rfl, hf, hp⟩
    · exact ⟨rfl, hf, hp⟩
  · have hfields : ∀ t : OutArgStream, t.paused = s.paused → t.flushImmed = s.flushImmed →
        ((OutArgStream.autoAdvance 4 t).maybeFlush).2 = [] ∧
        ((OutArgStream.autoAdvance 4 t).maybeFlush).1.flushImmed = false ∧
        ((OutArgStream.autoAdvance 4 t).maybeFlush).1.paused = true := by
      intro t htp htf
      have ha := autoAdvance_fields 4 t
      have hm := maybeFlush_paused (OutArgStream.autoAdvance 4 t)
        (by rw [ha.2.2.2.2.1, htp, hp]) (by rw [ha.2.2.2.2.2, htf, hf])
      exact ⟨hm.1, hm.2.1, hm.2.2.1⟩
    split
    · rcases chunk with _ | c
      · unfold OutArgStream.setEnded
        rcases n with _ | _ | _ | _ | n <;> exact ⟨rfl, hf, hp⟩
      · exact hfields _ rfl rfl
    · rcases chunk with _ | c
      · have h := hfields (s.setEnded n) ?_ ?_
        · exact h
        · unfold OutArgStream.setEnded
          rcases n with _ | _ | _ | _ | n <;> rfl
        · unfold OutArgStream.setEnded
          rcases n with _ | _ | _ | _ | n <;> rfl
      · exact hfields _ rfl rfl

theorem step_data (s : OutArgStream) (n : Nat) (c : Chunk) :
    s.step (OutAct.data n c) = s.handleFrameChunk n (some c) := rfl

theorem step_pause (s : OutArgStream) :
    s.step OutAct.pause = ({ s with paused := true, flushImmed := false }, [], none) := rfl

theorem step_resume (s : OutArgStream) :
    s.step OutAct.resume =
      ((({ s with paused := false } : OutArgStream).maybeFlush).1,
       (({ s with paused := false } : OutArgStream).maybeFlush).2, none) := rfl

theorem step_end_ne3 (s : OutArgStream) (n : Nat) (h : n ≠ 3) :
    s.step (OutAct.endA n) = s.handleFrameChunk n none := by
  show (if n = 3 then _ else _) = _
  rw [if_neg h]

theorem step_end3 (s : OutArgStream) :
    s.step (OutAct.endA 3) =
      ({ (if !(s.handleFrameChunk 3 none).1.paused
            then (s.handleFrameChunk 3 none).1.flushParts true
            else ((s.handleFrameChunk 3 none).1, [])).1 with finished := true },
       (s.handleFrameChunk 3 none).2.1 ++
         (if !(s.handleFrameChunk 3 none).1.paused
            then (s.handleFrameChunk 3 none).1.flushParts true
            else ((s.handleFrameChunk 3 none).1, [])).2,
       (s.handleFrameChunk 3 none).2.2) := rfl

theorem step_tick_sched (s : OutArgStream) (h : s.flushImmed = true) :
    s.step OutAct.tick = ((s.flushParts false).1, (s.flushParts false).2, none) := by
  show (if s.flushImmed = true then _ else _) = _
  rw [if_pos h]

theorem step_tick_idle (s : OutArgStream) (h : s.flushImmed = false) :
    s.step OutAct.tick = (s, [], none) := by
  show (if s.flushImmed = true then _ else _) = _
  rw [if_neg (by rw [h]; exact Bool.false_ne_true)]

theorem flushParts_final (s : OutArgStream) (hp : s.paused = false) (hfr : s.frame ≠ []) :
    s.flushParts true = ({ s with flushImmed := false, frame := [[]] }, [(s.frame, true)]) := by
  unfold OutArgStream.flushParts
  simp [hp, hfr]

/-- C8: while paused, no driver event other than `resume` emits any frame
group and no deferred flush ends up scheduled (`pause()` itself cancels a
scheduled one); data chunks handled while paused still accumulate into the
pending frame exactly as when unpaused, so no buffered bytes are lost; and
`resume()` re-attempts the flush decision immediately: when the call had
already logically finished while paused (all three slots ended), resuming
emits the buffered pending frame as the final group marked `isLast`. -/
theorem pause_resume_behavior (s : OutArgStream)
    (hp : s.paused = true) (hf : s.flushImmed = false) (hfr : s.frame ≠ []) :
    ((s.step OutAct.pause).1.flushImmed = false) ∧
    (∀ a : OutAct, a ≠ OutAct.resume → (s.step a).2.1 = [] ∧ (s.step a).1.flushImmed = false) ∧
    (∀ n c, (n = 1 ∨ n = 2 ∨ n = 3) → s.currentArgN = n → s.endedAt n = false →
      (s.step (OutAct.data n c)).1.frame = updLast s.frame (· ++ c)) ∧
    (s.finished = true → s.endedAt 1 = true → s.endedAt 2 = true → s.endedAt 3 = true →
      (s.step OutAct.resume).2.1 = [(s.frame, true)] ∧ (s.step OutAct.resume).1.frame = [[]]) := by
  refine ⟨rfl, ?_, ?_, ?_⟩
  · intro a ha
    cases a with
    | data n c =>
      rw [step_data]
      have h := handleFrameChunk_paused s n (some c) hp hf
      exact ⟨h.1, h.2.1⟩
    | endA n =>
      by_cases h3 : n = 3
      · subst h3
        rw [step_end3]
        have h := handleFrameChunk_paused s 3 none hp hf
        rw [h.2.2]
        exact ⟨by rw [h.1]; rfl, h.2.1⟩
      · rw [step_end_ne3 s n h3]
        have h := handleFrameChunk_paused s n none hp hf
        exact ⟨h.1, h.2.1⟩
    | pause => exact ⟨rfl, rfl⟩
    | resume => exact absurd rfl ha
    | tick =>
      rw [step_tick_idle s hf]
      exact ⟨rfl, hf⟩
  · intro n c hn hcur he
    rw [step_data]
    exact (handleFrameChunk_data s n c hn hcur he).1
  · intro hfin h1 h2 h3
    rw [step_resume]
    have hee : ∀ m, ({ s with paused := false } : OutArgStream).endedAt m = s.endedAt m :=
      fun m => endedAt_ext _ s rfl rfl rfl m
    have hcond : (({ s with paused := false } : OutArgStream).finished &&
        ({ s with paused := false } : OutArgStream).endedAt 1 &&
        ({ s with paused := false } : OutArgStream).endedAt 2 &&
        ({ s with paused := false } : OutArgStream).endedAt 3) = true := by
      rw [show ({ s with paused := false } : OutArgStream).finished = s.finished from rfl,
        hee 1, hee 2, hee 3, hfin, h1, h2, h3]
      rfl
    have hmf : ({ s with paused := false } : OutArgStream).maybeFlush
        = ({ s with paused := false } : OutArgStream).flushParts true := by
      unfold OutArgStream.maybeFlush
      rw [if_pos hcond]
    rw [hmf, flushParts_final ({ s with paused := false } : OutArgStream) rfl hfr]
    exact ⟨rfl, rfl⟩

theorem pause_resume_behavior_witness :
    (((OutArgStream.init.runOut [OutAct.pause, OutAct.data 1 [7], OutAct.endA 1, OutAct.endA 2,
        OutAct.endA 3]).1.step OutAct.resume).2.1 = [([[7], [], []], true)]) ∧
    (((OutArgStream.init.runOut [OutAct.pause, OutAct.data 1 [7], OutAct.endA 1, OutAct.endA 2,
        OutAct.endA 3]).1.step OutAct.tick).2.1 = []) := by
  have h := pause_resume_behavior
    (OutArgStream.init.runOut [OutAct.pause, OutAct.data 1 [7], OutAct.endA 1, OutAct.endA 2,
      OutAct.endA 3]).1 (by decide) (by decide) (by decide)
  refine ⟨?_, (h.2.1 OutAct.tick (by decide)).1⟩
  have h4 := h.2.2.2 (by decide) (by decide) (by decide) (by decide)
  rw [h4.1]
  decide

/-! ## C9 — terminality after `finished` -/

/-- C9 counterexample: the emitted groups of an `OutArgStream` can still
grow after `finished` is true.  Pausing before the three end signals makes
`onArg3End` skip the final flush but still set `finished`; the subsequent
`resume()` then emits the final frame group — observable growth of the
emitted sequence after `finished`, just as C8 requires. -/
theorem finished_not_terminal_counterexample :
    ((OutArgStream.init.runOut [OutAct.pause, OutAct.data 1 [7], OutAct.endA 1, OutAct.endA 2,
        OutAct.endA 3]).1.finished = true) ∧
    ((OutArgStream.init.runOut [OutAct.pause, OutAct.data 1 [7], OutAct.endA 1, OutAct.endA 2,
        OutAct.endA 3]).2.1 = []) ∧
    (((OutArgStream.init.runOut [OutAct.pause, OutAct.data 1 [7], OutAct.endA 1, OutAct.endA 2,
        OutAct.endA 3]).1.step OutAct.resume).2.1 = [([[7], [], []], true)]) := by
  decide

/-- C9 amended: once `finished` is true no further **data chunk** is
accepted: the inbound side rejects any non-null frame with
`StreamAlreadyFinished` leaving its state unchanged, and the outbound side
(whose cursor has passed slot 3 on the normal completion path) rejects any
data chunk with `ArgChunkOutOfOrder` leaving its state unchanged and
emitting nothing; the only emission still possible after `finished` is the
flush of the already-assembled final frame (pause/resume, see C8). -/
theorem finished_terminal_amended :
    (∀ (t : InArgStream) (ps : List Chunk), t.finished = true →
      t.handleFrame (some ps) = (t, some InErr.alreadyFinished)) ∧
    (∀ (s : OutArgStream) (n : Nat) (c : Chunk),
      s.finished = true → 3 < s.currentArgN → n ≤ 3 →
      s.handleFrameChunk n (some c) = (s, [], some (OutErr.outOfOrder s.currentArgN n c))) := by
  constructor
  · intro t ps h
    simp [InArgStream.handleFrame, h]
  · intro s n c _ hcur hn
    simp [OutArgStream.handleFrameChunk, show n < s.currentArgN from by omega]

theorem finished_terminal_amended_witness :
    ((InArgStream.init.handleFrame none).1.handleFrame (some [[2]]) =
      ((InArgStream.init.handleFrame none).1, some InErr.alreadyFinished)) ∧
    ((OutArgStream.init.runOut [OutAct.data 1 [7], OutAct.endA 1, OutAct.endA 2,
        OutAct.endA 3]).1.handleFrameChunk 2 (some [8]) =
      ((OutArgStream.init.runOut [OutAct.data 1 [7], OutAct.endA 1, OutAct.endA 2,
          OutAct.endA 3]).1, [], some (OutErr.outOfOrder 4 2 [8]))) := by
  constructor
  · exact finished_terminal_amended.1 _ _ (by decide)
  · have h := finished_terminal_amended.2
      (OutArgStream.init.runOut [OutAct.data 1 [7], OutAct.endA 1, OutAct.endA 2,
        OutAct.endA 3]).1 2 [8] (by decide) (by decide) (by decide)
    rw [h]
    have hc : (OutArgStream.init.runOut [OutAct.data 1 [7], OutAct.endA 1, OutAct.endA 2,
        OutAct.endA 3]).1.currentArgN = 4 := by decide
    rw [hc]

/-! ## C1 — round trip: reassembly lemmas -/

theorem put_nil (a : ReState) (j : Nat) : a.put j [] = a := by
  unfold ReState.put
  split_ifs <;> simp

theorem put_append (a : ReState) (j : Nat) (x y : Chunk) :
    a.put j (x ++ y) = (a.put j x).put j y := by
  unfold ReState.put
  split_ifs <;> simp_all

theorem reGroup_snoc (x : Chunk) : ∀ (f : FrameGroup) (c0 : Nat) (a0 : ReState)
    (fin : Nat) (dd : ReState),
    reGroup c0 a0 f = some (fin, dd) → f ≠ [] → fin + 1 < 3 →
    reGroup c0 a0 (f ++ [x]) = some (fin + 1, dd.put (fin + 1) x) := by
  intro f
  induction f with
  | nil => intro c0 a0 fin dd h hne h3; exact absurd rfl hne
  | cons y rest ih =>
    intro c0 a0 fin dd h hne h3
    cases rest with
    | nil =>
      rw [show reGroup c0 a0 [y] = if 3 ≤ c0 then none else some (c0, a0.put c0 y) from rfl] at h
      by_cases hc : 3 ≤ c0
      · rw [if_pos hc] at h; cases h
      · rw [if_neg hc] at h
        simp only [Option.some.injEq, Prod.mk.injEq] at h
        obtain ⟨h1, h2⟩ := h
        subst h1; subst h2
        show reGroup c0 a0 [y, x] = _
        rw [show reGroup c0 a0 [y, x]
            = if 3 ≤ c0 then none else reGroup (c0 + 1) (a0.put c0 y) [x] from rfl]
        rw [if_neg hc]
        rw [show reGroup (c0 + 1) (a0.put c0 y) [x]
            = if 3 ≤ c0 + 1 then none else some (c0 + 1, (a0.put c0 y).put (c0 + 1) x) from rfl]
        rw [if_neg (by omega)]
    | cons z rest2 =>
      rw [show reGroup c0 a0 (y :: z :: rest2)
          = if 3 ≤ c0 then none else reGroup (c0 + 1) (a0.put c0 y) (z :: rest2) from rfl] at h
      by_cases hc : 3 ≤ c0
      · rw [if_pos hc] at h; cases h
      · rw [if_neg hc] at h
        have hih := ih (c0 + 1) (a0.put c0 y) fin dd h (by simp) h3
        show reGroup c0 a0 ((y :: z :: rest2) ++ [x]) = _
        rw [List.cons_append]
        rw [show reGroup c0 a0 (y :: ((z :: rest2) ++ [x]))
            = if 3 ≤ c0 then none
              else reGroup (c0 + 1) (a0.put c0 y) ((z :: rest2) ++ [x]) from by
          rw [List.cons_append]; rfl]
        rw [if_neg hc]
        exact hih

theorem reGroup_updLast (c : Chunk) : ∀ (f : FrameGroup) (c0 : Nat) (a0 : ReState)
    (fin : Nat) (dd : ReState),
    reGroup c0 a0 f = some (fin, dd) → f ≠ [] →
    reGroup c0 a0 (updLast f (· ++ c)) = some (fin, dd.put fin c) := by
  intro f
  induction f with
  | nil => intro c0 a0 fin dd h hne; exact absurd rfl hne
  | cons y rest ih =>
    intro c0 a0 fin dd h hne
    cases rest with
    | nil =>
      rw [show reGroup c0 a0 [y] = if 3 ≤ c0 then none else some (c0, a0.put c0 y) from rfl] at h
      by_cases hc : 3 ≤ c0
      · rw [if_pos hc] at h; cases h
      · rw [if_neg hc] at h
        simp only [Option.some.injEq, Prod.mk.injEq] at h
        obtain ⟨h1, h2⟩ := h
        subst h1; subst h2
        show reGroup c0 a0 [y ++ c] = _
        rw [show reGroup c0 a0 [y ++ c]
            = if 3 ≤ c0 then none else some (c0, a0.put c0 (y ++ c)) from rfl]
        rw [if_neg hc, put_append]
    | cons z rest2 =>
      rw [show reGroup c0 a0 (y :: z :: rest2)
          = if 3 ≤ c0 then none else reGroup (c0 + 1) (a0.put c0 y) (z :: rest2) from rfl] at h
      by_cases hc : 3 ≤ c0
      · rw [if_pos hc] at h; cases h
      · rw [if_neg hc] at h
        have hih := ih (c0 + 1) (a0.put c0 y) fin dd h (by simp)
        rw [updLast_cons_of_ne y (z :: rest2) _ (by simp)]
        have hz : updLast (z :: rest2) (· ++ c) ≠ [] := updLast_ne_nil _ _ (by simp)
        cases hu : updLast (z :: rest2) (· ++ c) with
        | nil => exact absurd hu hz
        | cons u us =>
          rw [show reGroup c0 a0 (y :: u :: us)
              = if 3 ≤ c0 then none else reGroup (c0 + 1) (a0.put c0 y) (u :: us) from rfl]
          rw [if_neg hc, ← hu]
          exact hih

theorem reRun_snoc (g : FrameGroup) : ∀ (gs : List FrameGroup) (c : Nat) (a : ReState)
    (c1 : Nat) (a1 : ReState),
    reRun c a gs = some (c1, a1) →
    reRun c a (gs ++ [g]) = reGroup c1 a1 g := by
  intro gs
  induction gs with
  | nil =>
    intro c a c1 a1 h
    simp only [reRun, Option.some.injEq, Prod.mk.injEq] at h
    obtain ⟨h1, h2⟩ := h
    subst h1; subst h2
    show reRun c a [g] = reGroup c a g
    rw [show reRun c a [g] = match reGroup c a g with
        | some (c2, a2) => reRun c2 a2 []
        | none => none from rfl]
    cases hg : reGroup c a g with
    | none => rfl
    | some p => cases p; rfl
  | cons h0 rest ih =>
    intro c a c1 a1 h
    rw [show reRun c a (h0 :: rest) = match reGroup c a h0 with
        | some (c2, a2) => reRun c2 a2 rest
        | none => none from rfl] at h
    rw [List.cons_append]
    rw [show reRun c a (h0 :: (rest ++ [g])) = match reGroup c a h0 with
        | some (c2, a2) => reRun c2 a2 (rest ++ [g])
        | none => none from rfl]
    cases hg : reGroup c a h0 with
    | none => rw [hg] at h; cases h
    | some p =>
      obtain ⟨c2, a2⟩ := p
      rw [hg] at h
      simp only [] at h ⊢
      exact ih c2 a2 c1 a1 h

/-! ## C1 — bridge between ideal reassembly and the `InArgStream` embedding -/

theorem isEmpty_append_ne (l m : List Nat) (h : m ≠ []) : (l ++ m).isEmpty = false := by
  cases l <;> cases m <;> simp_all [List.isEmpty]

theorem writeIdx_mkIn (c : Nat) (a : ReState) (x : Chunk) (hc : c < 3) (hx : x ≠ []) :
    (mkIn c a).writeIdx c x = mkIn c (a.put c x) := by
  have hxe : x.isEmpty = false := by
    cases x with
    | nil => exact absurd rfl hx
    | cons b bs => rfl
  rcases c with _ | _ | _ | c
  · have he1 := isEmpty_append_ne a.s1 x hx
    by_cases hs : a.s1.isEmpty <;>
      simp_all [mkIn, InArgStream.writeIdx, InArgStream.endIdx, ArgsState.slotAt,
        ArgsState.setAt, ReState.put]
  · have he2 := isEmpty_append_ne a.s2 x hx
    by_cases hs : a.s2.isEmpty <;>
      simp_all [mkIn, InArgStream.writeIdx, InArgStream.endIdx, ArgsState.slotAt,
        ArgsState.setAt, ReState.put]
  · have he3 := isEmpty_append_ne a.s3 x hx
    by_cases hs : a.s3.isEmpty <;>
      simp_all [mkIn, InArgStream.writeIdx, InArgStream.endIdx, ArgsState.slotAt,
        ArgsState.setAt, ReState.put]
  · omega

theorem advance_mkIn (c : Nat) (a : ReState) (hc : c + 1 < 3) :
    (mkIn c a).advance = mkIn (c + 1) a := by
  rcases c with _ | _ | c
  · simp [mkIn, InArgStream.advance, InArgStream.endIdx, ArgsState.slotAt, ArgsState.setAt,
      StreamArg.endMark]
  · simp [mkIn, InArgStream.advance, InArgStream.endIdx, ArgsState.slotAt, ArgsState.setAt,
      StreamArg.endMark]
  · omega

theorem consume_mkIn : ∀ (g : FrameGroup) (c : Nat) (a : ReState) (fin : Nat) (dd : ReState),
    reGroup c a g = some (fin, dd) → (mkIn c a).consume g = (mkIn fin dd, none) := by
  intro g
  induction g with
  | nil =>
    intro c a fin dd h
    simp only [reGroup, Option.some.injEq, Prod.mk.injEq] at h
    obtain ⟨h1, h2⟩ := h
    subst h1; subst h2
    rfl
  | cons x rest ih =>
    intro c a fin dd h
    rw [show reGroup c a (x :: rest) = if 3 ≤ c then none else
        (match rest with
         | [] => some (c, a.put c x)
         | _ :: _ => reGroup (c + 1) (a.put c x) rest) from rfl] at h
    by_cases hc : 3 ≤ c
    · rw [if_pos hc] at h; cases h
    · rw [if_neg hc] at h
      have hc3 : c < 3 := by omega
      have hs1 : (if x.length = 0 then mkIn c a else (mkIn c a).writeIdx ((mkIn c a).iStream) x)
          = mkIn c (a.put c x) := by
        by_cases hx : x.length = 0
        · rw [if_pos hx]
          have : x = [] := List.eq_nil_of_length_eq_zero hx
          subst this
          rw [put_nil]
        · rw [if_neg hx]
          exact writeIdx_mkIn c a x hc3 (fun hn => hx (by rw [hn]; rfl))
      cases rest with
      | nil =>
        simp only [Option.some.injEq, Prod.mk.injEq] at h
        obtain ⟨h1, h2⟩ := h
        subst h1; subst h2
        show (if 3 ≤ (mkIn c a).iStream then ((mkIn c a), some InErr.arity)
          else ((if x.length = 0 then mkIn c a
                 else (mkIn c a).writeIdx ((mkIn c a).iStream) x), none)) = _
        rw [if_neg (show ¬ 3 ≤ (mkIn c a).iStream from hc), hs1]
      | cons z rest2 =>
        have hc1 : c + 1 < 3 := by
          by_contra hcon
          have h31 : 3 ≤ c + 1 := by omega
          rw [show reGroup (c + 1) (a.put c x) (z :: rest2) = if 3 ≤ c + 1 then none else
              (match rest2 with
               | [] => some (c + 1, (a.put c x).put (c + 1) z)
               | _ :: _ => reGroup (c + 1 + 1) ((a.put c x).put (c + 1) z) rest2)
              from rfl] at h
          rw [if_pos h31] at h
          cases h
        show (if 3 ≤ (mkIn c a).iStream then ((mkIn c a), some InErr.arity)
          else ((if x.length = 0 then mkIn c a
                 else (mkIn c a).writeIdx ((mkIn c a).iStream) x).advance.consume (z :: rest2)))
          = _
        rw [if_neg (show ¬ 3 ≤ (mkIn c a).iStream from hc), hs1,
          advance_mkIn c (a.put c x) hc1]
        exact ih (c + 1) (a.put c x) fin dd h

theorem runIn_mkIn : ∀ (gs : List FrameGroup) (c : Nat) (a : ReState) (fin : Nat) (dd : ReState),
    reRun c a gs = some (fin, dd) → runIn (mkIn c a) gs = (mkIn fin dd, none) := by
  intro gs
  induction gs with
  | nil =>
    intro c a fin dd h
    simp only [reRun, Option.some.injEq, Prod.mk.injEq] at h
    obtain ⟨h1, h2⟩ := h
    subst h1; subst h2
    rfl
  | cons g rest ih =>
    intro c a fin dd h
    rw [show reRun c a (g :: rest) = match reGroup c a g with
        | some (c1, a1) => reRun c1 a1 rest
        | none => none from rfl] at h
    cases hg : reGroup c a g with
    | none => rw [hg] at h; cases h
    | some p =>
      obtain ⟨c1, a1⟩ := p
      rw [hg] at h
      simp only [] at h
      have hhf : (mkIn c a).handleFrame (some g) = (mkIn c1 a1, none) := by
        show (if (mkIn c a).finished then ((mkIn c a), some InErr.alreadyFinished)
          else (mkIn c a).consume g) = _
        rw [if_neg (show ¬ (mkIn c a).finished = true by rw [show (mkIn c a).finished = false from rfl]; simp)]
        exact consume_mkIn g c a c1 a1 hg
      rw [show runIn (mkIn c a) (g :: rest) = match (mkIn c a).handleFrame (some g) with
          | (s1, none) => runIn s1 rest
          | (s1, some e) => (s1, some e) from rfl, hhf]
      exact ih c1 a1 fin dd h

/-! ## C1 — mux invariant step lemmas -/

theorem muxInv_frame_ne (p : Nat) (dd : ReState) (gs : List Emit) (s : OutArgStream)
    (h : muxInv p dd gs s) : s.frame ≠ [] := by
  obtain ⟨-, -, -, -, -, -, hp1, -, c0, a0, -, hlen, hgr⟩ := h
  intro hfr
  rw [hfr] at hlen hgr
  simp only [reGroup, Option.some.injEq, Prod.mk.injEq, List.length_nil] at hlen hgr
  omega

theorem flushParts_deferred (s : OutArgStream) (hp : s.paused = false)
    (hfin : s.finished = false) (hfr : s.frame ≠ []) :
    s.flushParts false = ({ s with flushImmed := false, frame := [[]] }, [(s.frame, false)]) := by
  unfold OutArgStream.flushParts
  simp [hp, hfin, hfr]

theorem stepPause_inv (p : Nat) (dd : ReState) (gs : List Emit) (s : OutArgStream)
    (h : muxInv p dd gs s) :
    (s.step OutAct.pause).2.2 = none ∧ (s.step OutAct.pause).2.1 = [] ∧
    muxInv p dd gs (s.step OutAct.pause).1 := by
  obtain ⟨hcur, he1, he2, he3, hfin, hsched, hp1, hp3, c0, a0, hrun, hlen, hgr⟩ := h
  rw [step_pause]
  exact ⟨rfl, rfl, hcur, he1, he2, he3, hfin,
    fun hh => absurd hh Bool.false_ne_true, hp1, hp3, c0, a0, hrun, hlen, hgr⟩

theorem stepResume_inv (p : Nat) (dd : ReState) (gs : List Emit) (s : OutArgStream)
    (h : muxInv p dd gs s) :
    (s.step OutAct.resume).2.2 = none ∧ (s.step OutAct.resume).2.1 = [] ∧
    muxInv p dd gs (s.step OutAct.resume).1 := by
  obtain ⟨hcur, he1, he2, he3, hfin, hsched, hp1, hp3, c0, a0, hrun, hlen, hgr⟩ := h
  rw [step_resume]
  have hno : (({ s with paused := false } : OutArgStream).finished &&
      ({ s with paused := false } : OutArgStream).endedAt 1 &&
      ({ s with paused := false } : OutArgStream).endedAt 2 &&
      ({ s with paused := false } : OutArgStream).endedAt 3) = false := by
    rw [show ({ s with paused := false } : OutArgStream).finished = s.finished from rfl, hfin]
    rfl
  have hm := maybeFlush_defer _ hno
  refine ⟨rfl, hm.1, hm.2.2.1.trans hcur, hm.2.2.2.1.trans he1, hm.2.2.2.2.1.trans he2,
    hm.2.2.2.2.2.1.trans he3, hm.2.2.2.2.2.2.1.trans hfin,
    fun _ => hm.2.2.2.2.2.2.2.1.trans rfl, hp1, hp3, c0, a0, hrun, ?_, ?_⟩
  · rw [hm.2.1]
    exact hlen
  · rw [hm.2.1]
    exact hgr

theorem stepTick_inv (p : Nat) (dd : ReState) (gs : List Emit) (s : OutArgStream)
    (h : muxInv p dd gs s) :
    (s.step OutAct.tick).2.2 = none ∧
    muxInv p dd (gs ++ (s.step OutAct.tick).2.1) (s.step OutAct.tick).1 := by
  have hfr := muxInv_frame_ne p dd gs s h
  obtain ⟨hcur, he1, he2, he3, hfin, hsched, hp1, hp3, c0, a0, hrun, hlen, hgr⟩ := h
  by_cases hfi : s.flushImmed = true
  · have hpz := hsched hfi
    rw [step_tick_sched s hfi, flushParts_deferred s hpz hfin hfr]
    dsimp only
    refine ⟨rfl, hcur, he1, he2, he3, hfin, fun hh => absurd hh Bool.false_ne_true,
      hp1, hp3, p - 1, dd, ?_, by simp only [List.length_cons, List.length_nil]; omega, ?_⟩
    · rw [List.map_append]
      simp only [List.map_cons, List.map_nil]
      rw [reRun_snoc s.frame (gs.map Prod.fst) 0 ReState.init c0 a0 hrun]
      exact hgr
    · rw [show reGroup (p - 1) dd [[]]
          = if 3 ≤ p - 1 then none else some (p - 1, dd.put (p - 1) ([] : Chunk)) from rfl,
        if_neg (by omega), put_nil]
  · have hfi0 : s.flushImmed = false := by revert hfi; cases s.flushImmed <;> simp
    rw [step_tick_idle s hfi0, List.append_nil]
    exact ⟨rfl, hcur, he1, he2, he3, hfin, hsched, hp1, hp3, c0, a0, hrun, hlen, hgr⟩

theorem stepData_inv (p : Nat) (dd : ReState) (gs : List Emit) (s : OutArgStream) (c : Chunk)
    (h : muxInv p dd gs s) :
    (s.step (OutAct.data p c)).2.2 = none ∧ (s.step (OutAct.data p c)).2.1 = [] ∧
    muxInv p (dd.put (p - 1) c) gs (s.step (OutAct.data p c)).1 := by
  have hfr := muxInv_frame_ne p dd gs s h
  obtain ⟨hcur, he1, he2, he3, hfin, hsched, hp1, hp3, c0, a0, hrun, hlen, hgr⟩ := h
  have hn : p = 1 ∨ p = 2 ∨ p = 3 := by omega
  have hend : s.endedAt p = false := by
    rcases hn with hh | hh | hh <;> subst hh
    · rw [show s.endedAt 1 = s.ended1 from rfl, he1]; rfl
    · rw [show s.endedAt 2 = s.ended2 from rfl, he2]; rfl
    · rw [show s.endedAt 3 = s.ended3 from rfl, he3]
  rw [step_data]
  have hd := handleFrameChunk_data s p c hn hcur hend
  refine ⟨hd.2.2.2.2.2.2.2.2.2, hd.2.2.2.2.2.2.2.2.1, hd.2.1.trans hcur,
    hd.2.2.1.trans he1, hd.2.2.2.1.trans he2, hd.2.2.2.2.1.trans he3,
    hd.2.2.2.2.2.1.trans hfin, ?_, hp1, hp3, c0, a0, hrun, ?_, ?_⟩
  · intro hh
    rcases hd.2.2.2.2.2.2.2.1 hh with hfi | hpz
    · rw [hd.2.2.2.2.2.2.1]
      exact hsched hfi
    · rw [hd.2.2.2.2.2.2.1]
      exact hpz
  · rw [hd.1, updLast_length]
    exact hlen
  · rw [hd.1]
    exact reGroup_updLast c s.frame c0 a0 (p - 1) dd hgr hfr

theorem stepEnd1_inv (dd : ReState) (gs : List Emit) (s : OutArgStream)
    (h : muxInv 1 dd gs s) :
    (s.step (OutAct.endA 1)).2.2 = none ∧ (s.step (OutAct.endA 1)).2.1 = [] ∧
    muxInv 2 dd gs (s.step (OutAct.endA 1)).1 := by
  have hfr := muxInv_frame_ne 1 dd gs s h
  obtain ⟨hcur, he1, he2, he3, hfin, hsched, hp1, hp3, c0, a0, hrun, hlen, hgr⟩ := h
  rw [step_end_ne3 s 1 (by omega)]
  obtain ⟨f, cur, e1, e2, e3, fin, pz, fi⟩ := s
  have hcur' : cur = 1 := hcur
  have he1' : e1 = false := by have hx : e1 = decide (1 < 1) := he1; simpa using hx
  have he2' : e2 = false := by have hx : e2 = decide (2 < 1) := he2; simpa using hx
  have he3' : e3 = false := he3
  have hfin' : fin = false := hfin
  have hfr' : f ≠ [] := hfr
  have hsched' : fi = true → pz = false := hsched
  subst hcur'; subst he1'; subst he2'; subst he3'; subst hfin'
  have hgr' : reGroup c0 a0 f = some (0, dd) := hgr
  have hlen' : c0 + f.length = 1 := hlen
  have hmux : ∀ X : Bool, (X = true → pz = false) →
      muxInv 2 dd gs ⟨f ++ [[]], 2, true, false, false, false, pz, X⟩ := by
    intro X hX
    refine ⟨rfl, rfl, rfl, rfl, rfl, hX, by omega, by omega, c0, a0, hrun, ?_, ?_⟩
    · simp only [List.length_append, List.length_cons, List.length_nil]
      omega
    · have hs := reGroup_snoc ([] : Chunk) f c0 a0 0 dd hgr' hfr' (by omega)
      rw [put_nil] at hs
      exact hs
  simp [OutArgStream.handleFrameChunk, OutArgStream.setEnded, OutArgStream.afterChunk,
    OutArgStream.autoAdvance, OutArgStream.endedAt, OutArgStream.maybeFlush,
    OutArgStream.deferFlushParts]
  split
  · split
    · rename_i hc
      exact ⟨rfl, hmux true (fun _ => hc.2)⟩
    · exact ⟨rfl, hmux fi hsched'⟩
  · exact ⟨rfl, hmux fi hsched'⟩

theorem stepEnd2_inv (dd : ReState) (gs : List Emit) (s : OutArgStream)
    (h : muxInv 2 dd gs s) :
    (s.step (OutAct.endA 2)).2.2 = none ∧ (s.step (OutAct.endA 2)).2.1 = [] ∧
    muxInv 3 dd gs (s.step (OutAct.endA 2)).1 := by
  have hfr := muxInv_frame_ne 2 dd gs s h
  obtain ⟨hcur, he1, he2, he3, hfin, hsched, hp1, hp3, c0, a0, hrun, hlen, hgr⟩ := h
  rw [step_end_ne3 s 2 (by omega)]
  obtain ⟨f, cur, e1, e2, e3, fin, pz, fi⟩ := s
  have hcur' : cur = 2 := hcur
  have he1' : e1 = true := by have hx : e1 = decide (1 < 2) := he1; simpa using hx
  have he2' : e2 = false := by have hx : e2 = decide (2 < 2) := he2; simpa using hx
  have he3' : e3 = false := he3
  have hfin' : fin = false := hfin
  have hfr' : f ≠ [] := hfr
  have hsched' : fi = true → pz = false := hsched
  subst hcur'; subst he1'; subst he2'; subst he3'; subst hfin'
  have hgr' : reGroup c0 a0 f = some (1, dd) := hgr
  have hlen' : c0 + f.length = 2 := hlen
  have hmux : ∀ X : Bool, (X = true → pz = false) →
      muxInv 3 dd gs ⟨f ++ [[]], 3, true, true, false, false, pz, X⟩ := by
    intro X hX
    refine ⟨rfl, rfl, rfl, rfl, rfl, hX, by omega, by omega, c0, a0, hrun, ?_, ?_⟩
    · simp only [List.length_append, List.length_cons, List.length_nil]
      omega
    · have hs := reGroup_snoc ([] : Chunk) f c0 a0 1 dd hgr' hfr' (by omega)
      rw [put_nil] at hs
      exact hs
  simp [OutArgStream.handleFrameChunk, OutArgStream.setEnded, OutArgStream.afterChunk,
    OutArgStream.autoAdvance, OutArgStream.endedAt, OutArgStream.maybeFlush,
    OutArgStream.deferFlushParts]
  split
  · split
    · rename_i hc
      exact ⟨rfl, hmux true (fun _ => hc.2)⟩
    · exact ⟨rfl, hmux fi hsched'⟩
  · exact ⟨rfl, hmux fi hsched'⟩

theorem stepEnd3_inv (dd : ReState) (gs : List Emit) (s : OutArgStream)
    (h : muxInv 3 dd gs s) :
    (s.step (OutAct.endA 3)).2.2 = none ∧
    doneInv dd (gs ++ (s.step (OutAct.endA 3)).2.1) (s.step (OutAct.endA 3)).1 := by
  have hfr := muxInv_frame_ne 3 dd gs s h
  obtain ⟨hcur, he1, he2, he3, hfin, hsched, hp1, hp3, c0, a0, hrun, hlen, hgr⟩ := h
  rw [step_end3]
  obtain ⟨f, cur, e1, e2, e3, fin, pz, fi⟩ := s
  have hcur' : cur = 3 := hcur
  have he1' : e1 = true := by have hx : e1 = decide (1 < 3) := he1; simpa using hx
  have he2' : e2 = true := by have hx : e2 = decide (2 < 3) := he2; simpa using hx
  have he3' : e3 = false := he3
  have hfin' : fin = false := hfin
  have hfr' : f ≠ [] := hfr
  have hsched' : fi = true → pz = false := hsched
  subst hcur'; subst he1'; subst he2'; subst he3'; subst hfin'
  have hgr' : reGroup c0 a0 f = some (2, dd) := hgr
  have hlen' : c0 + f.length = 3 := hlen
  by_cases hpz : pz = true
  · have hfi0 : fi = false := by
      cases hfi2 : fi with
      | false => rfl
      | true => exact absurd (hsched' hfi2) (by rw [hpz]; simp)
    subst hpz; subst hfi0
    simp [OutArgStream.handleFrameChunk, OutArgStream.setEnded, OutArgStream.afterChunk,
      OutArgStream.autoAdvance, OutArgStream.endedAt, OutArgStream.maybeFlush,
      OutArgStream.deferFlushParts, OutArgStream.flushParts]
    exact ⟨rfl, rfl, rfl, rfl, rfl, rfl, fun _ => ⟨c0, a0, hrun, hlen', hgr'⟩,
      fun hh => absurd hh (by simp)⟩
  · have hpz0 : pz = false := by
      cases pz with
      | false => rfl
      | true => exact absurd rfl hpz
    subst hpz0
    simp [OutArgStream.handleFrameChunk, OutArgStream.setEnded, OutArgStream.afterChunk,
      OutArgStream.autoAdvance, OutArgStream.endedAt, OutArgStream.maybeFlush,
      OutArgStream.deferFlushParts, OutArgStream.flushParts, hfr']
    split_ifs <;>
      first
      | (simp only [List.nil_append, List.append_nil]
         refine ⟨rfl, rfl, rfl, rfl, rfl, rfl, fun hh => absurd hh (by simp),
           fun _ => ⟨?_, ?_, rfl⟩⟩
         · rw [List.getLast?_concat]
           rfl
         · rw [List.map_append]
           simp only [List.map_cons, List.map_nil]
           rw [reRun_snoc f (gs.map Prod.fst) 0 ReState.init c0 a0 hrun]
           exact hgr')
      | simp_all

theorem doneInv_frame_ne (full : ReState) (gs : List Emit) (s : OutArgStream)
    (h : doneInv full gs s) : s.frame ≠ [] := by
  obtain ⟨-, -, -, -, -, -, hPaused, hUnp⟩ := h
  cases hsp : s.paused with
  | true =>
    obtain ⟨c0, a0, -, hlen, hgr⟩ := hPaused hsp
    intro hfr
    rw [hfr] at hlen hgr
    simp only [reGroup, Option.some.injEq, Prod.mk.injEq, List.length_nil] at hlen hgr
    omega
  | false =>
    obtain ⟨-, -, hframe⟩ := hUnp hsp
    rw [hframe]
    simp

theorem stepDone_inv (full : ReState) (gs : List Emit) (s : OutArgStream) (a : OutAct)
    (hc : a.isCtl = true) (h : doneInv full gs s) :
    (s.step a).2.2 = none ∧ doneInv full (gs ++ (s.step a).2.1) (s.step a).1 := by
  have hfr := doneInv_frame_ne full gs s h
  obtain ⟨hcur, he1, he2, he3, hfin, hfi, hPaused, hUnp⟩ := h
  cases a with
  | data n c => cases hc
  | endA n => cases hc
  | pause =>
    rw [step_pause, List.append_nil]
    refine ⟨rfl, hcur, he1, he2, he3, hfin, rfl, fun _ => ?_, fun hh => absurd hh (by simp)⟩
    cases hsp : s.paused with
    | true => exact hPaused hsp
    | false =>
      obtain ⟨-, hrunFull, hframe⟩ := hUnp hsp
      refine ⟨2, full, hrunFull, ?_, ?_⟩
      · rw [hframe]
        rfl
      · rw [hframe]
        rw [show reGroup 2 full [[]]
            = if 3 ≤ 2 then none else some (2, full.put 2 ([] : Chunk)) from rfl,
          if_neg (by omega), put_nil]
  | resume =>
    rw [step_resume]
    have hcond : (({ s with paused := false } : OutArgStream).finished &&
        ({ s with paused := false } : OutArgStream).endedAt 1 &&
        ({ s with paused := false } : OutArgStream).endedAt 2 &&
        ({ s with paused := false } : OutArgStream).endedAt 3) = true := by
      show (s.finished && s.ended1 && s.ended2 && s.ended3) = true
      rw [hfin, he1, he2, he3]
      rfl
    have hmf : ({ s with paused := false } : OutArgStream).maybeFlush
        = ({ s with paused := false } : OutArgStream).flushParts true := by
      unfold OutArgStream.maybeFlush
      rw [if_pos hcond]
    rw [hmf, flushParts_final ({ s with paused := false } : OutArgStream) rfl hfr]
    refine ⟨rfl, hcur, he1, he2, he3, hfin, rfl, fun hh => absurd hh (by simp),
      fun _ => ⟨?_, ?_, rfl⟩⟩
    · rw [List.getLast?_concat]
      rfl
    · rw [List.map_append]
      simp only [List.map_cons, List.map_nil]
      cases hsp : s.paused with
      | true =>
        obtain ⟨c0, a0, hrun, hlen, hgr⟩ := hPaused hsp
        rw [reRun_snoc s.frame (gs.map Prod.fst) 0 ReState.init c0 a0 hrun]
        exact hgr
      | false =>
        obtain ⟨-, hrunFull, hframe⟩ := hUnp hsp
        rw [reRun_snoc s.frame (gs.map Prod.fst) 0 ReState.init 2 full hrunFull, hframe]
        rw [show reGroup 2 full [[]]
            = if 3 ≤ 2 then none else some (2, full.put 2 ([] : Chunk)) from rfl,
          if_neg (by omega), put_nil]
  | tick =>
    rw [step_tick_idle s hfi, List.append_nil]
    exact ⟨rfl, hcur, he1, he2, he3, hfin, hfi, hPaused, hUnp⟩

theorem runOut_cons (s : OutArgStream) (a : OutAct) (rest : List OutAct) :
    s.runOut (a :: rest) =
      (((s.step a).1.runOut rest).1,
       (s.step a).2.1 ++ ((s.step a).1.runOut rest).2.1,
       (s.step a).2.2.toList ++ ((s.step a).1.runOut rest).2.2) := rfl

theorem runOut_done : ∀ (acts : List OutAct) (full : ReState) (gs : List Emit)
    (s : OutArgStream),
    payload acts = [] → doneInv full gs s →
    (s.runOut acts).2.2 = [] ∧
    doneInv full (gs ++ (s.runOut acts).2.1) (s.runOut acts).1 := by
  intro acts
  induction acts with
  | nil =>
    intro full gs s hpay h
    refine ⟨rfl, ?_⟩
    show doneInv full (gs ++ []) s
    rw [List.append_nil]
    exact h
  | cons a rest ih =>
    intro full gs s hpay h
    rw [payload, List.filter_cons] at hpay
    have hctl : a.isCtl = true := by
      by_cases hc : a.isCtl
      · exact hc
      · rw [if_pos (by simp [hc])] at hpay
        cases hpay
    rw [if_neg (by simp [hctl])] at hpay
    obtain ⟨he, hd⟩ := stepDone_inv full gs s a hctl h
    obtain ⟨ihe, ihd⟩ := ih full (gs ++ (s.step a).2.1) (s.step a).1 hpay hd
    rw [runOut_cons]
    refine ⟨?_, ?_⟩
    · rw [he, ihe]
      rfl
    · rw [← List.append_assoc]
      exact ihd

theorem runOut_phase3 : ∀ (acts : List OutAct) (c3s : List Chunk) (u1 u2 d : List Nat)
    (gs : List Emit) (s : OutArgStream),
    payload acts = c3s.map (OutAct.data 3) ++ [OutAct.endA 3] →
    muxInv 3 ⟨u1, u2, d⟩ gs s →
    (s.runOut acts).2.2 = [] ∧
    doneInv ⟨u1, u2, d ++ c3s.flatten⟩ (gs ++ (s.runOut acts).2.1) (s.runOut acts).1 := by
  intro acts
  induction acts with
  | nil =>
    intro c3s u1 u2 d gs s hpay h
    rw [payload] at hpay
    simp at hpay
  | cons a rest ih =>
    intro c3s u1 u2 d gs s hpay h
    rw [payload, List.filter_cons] at hpay
    by_cases hctl : a.isCtl = true
    · rw [if_neg (by simp [hctl])] at hpay
      rw [runOut_cons]
      cases a with
      | data n c => cases hctl
      | endA n => cases hctl
      | pause =>
        obtain ⟨he, hf, hm⟩ := stepPause_inv 3 ⟨u1, u2, d⟩ gs s h
        obtain ⟨ihe, ihd⟩ := ih c3s u1 u2 d gs (s.step OutAct.pause).1 hpay hm
        refine ⟨by rw [he, ihe]; rfl, ?_⟩
        rw [hf, List.nil_append]
        exact ihd
      | resume =>
        obtain ⟨he, hf, hm⟩ := stepResume_inv 3 ⟨u1, u2, d⟩ gs s h
        obtain ⟨ihe, ihd⟩ := ih c3s u1 u2 d gs (s.step OutAct.resume).1 hpay hm
        refine ⟨by rw [he, ihe]; rfl, ?_⟩
        rw [hf, List.nil_append]
        exact ihd
      | tick =>
        obtain ⟨he, hm⟩ := stepTick_inv 3 ⟨u1, u2, d⟩ gs s h
        obtain ⟨ihe, ihd⟩ := ih c3s u1 u2 d (gs ++ (s.step OutAct.tick).2.1)
          (s.step OutAct.tick).1 hpay hm
        refine ⟨by rw [he, ihe]; rfl, ?_⟩
        rw [← List.append_assoc]
        exact ihd
    · rw [if_pos (by simp [hctl])] at hpay
      cases a with
      | pause => exact absurd rfl hctl
      | resume => exact absurd rfl hctl
      | tick => exact absurd rfl hctl
      | data n c =>
        cases c3s with
        | nil => simp at hpay
        | cons x c3s2 =>
          simp only [List.map_cons, List.cons_append, List.cons.injEq, OutAct.data.injEq] at hpay
          obtain ⟨⟨hn, hx⟩, hrest⟩ := hpay
          subst hn
          obtain ⟨he, hf, hm⟩ := stepData_inv 3 ⟨u1, u2, d⟩ gs s c h
          have hput : (⟨u1, u2, d⟩ : ReState).put 2 c = ⟨u1, u2, d ++ c⟩ := rfl
          rw [hput] at hm
          obtain ⟨ihe, ihd⟩ := ih c3s2 u1 u2 (d ++ c) gs (s.step (OutAct.data 3 c)).1 hrest hm
          rw [runOut_cons]
          refine ⟨by rw [he, ihe]; rfl, ?_⟩
          rw [hf, List.nil_append]
          have hgoal : d ++ (x :: c3s2).flatten = (d ++ c) ++ c3s2.flatten := by
            rw [List.flatten_cons, ← hx, List.append_assoc]
          rw [hgoal]
          exact ihd
      | endA n =>
        cases c3s with
        | cons x c3s2 => simp at hpay
        | nil =>
          simp only [List.map_nil, List.nil_append, List.cons.injEq, OutAct.endA.injEq] at hpay
          obtain ⟨hn, hrest⟩ := hpay
          subst hn
          obtain ⟨he, hd⟩ := stepEnd3_inv ⟨u1, u2, d⟩ gs s h
          obtain ⟨ihe, ihd⟩ := runOut_done rest _ _ _ hrest hd
          rw [runOut_cons]
          refine ⟨by rw [he, ihe]; rfl, ?_⟩
          dsimp only
          rw [List.flatten_nil, List.append_nil, ← List.append_assoc]
          exact ihd

theorem runOut_phase2 : ∀ (acts : List OutAct) (c2s c3s : List Chunk) (u1 d : List Nat)
    (gs : List Emit) (s : OutArgStream),
    payload acts = c2s.map (OutAct.data 2) ++ [OutAct.endA 2]
      ++ c3s.map (OutAct.data 3) ++ [OutAct.endA 3] →
    muxInv 2 ⟨u1, d, []⟩ gs s →
    (s.runOut acts).2.2 = [] ∧
    doneInv ⟨u1, d ++ c2s.flatten, c3s.flatten⟩ (gs ++ (s.runOut acts).2.1) (s.runOut acts).1 := by
  intro acts
  induction acts with
  | nil =>
    intro c2s c3s u1 d gs s hpay h
    rw [payload] at hpay
    cases c2s <;> simp at hpay
  | cons a rest ih =>
    intro c2s c3s u1 d gs s hpay h
    rw [payload, List.filter_cons] at hpay
    by_cases hctl : a.isCtl = true
    · rw [if_neg (by simp [hctl])] at hpay
      rw [runOut_cons]
      cases a with
      | data n c => cases hctl
      | endA n => cases hctl
      | pause =>
        obtain ⟨he, hf, hm⟩ := stepPause_inv 2 ⟨u1, d, []⟩ gs s h
        obtain ⟨ihe, ihd⟩ := ih c2s c3s u1 d gs (s.step OutAct.pause).1 hpay hm
        refine ⟨by rw [he, ihe]; rfl, ?_⟩
        rw [hf, List.nil_append]
        exact ihd
      | resume =>
        obtain ⟨he, hf, hm⟩ := stepResume_inv 2 ⟨u1, d, []⟩ gs s h
        obtain ⟨ihe, ihd⟩ := ih c2s c3s u1 d gs (s.step OutAct.resume).1 hpay hm
        refine ⟨by rw [he, ihe]; rfl, ?_⟩
        rw [hf, List.nil_append]
        exact ihd
      | tick =>
        obtain ⟨he, hm⟩ := stepTick_inv 2 ⟨u1, d, []⟩ gs s h
        obtain ⟨ihe, ihd⟩ := ih c2s c3s u1 d (gs ++ (s.step OutAct.tick).2.1)
          (s.step OutAct.tick).1 hpay hm
        refine ⟨by rw [he, ihe]; rfl, ?_⟩
        rw [← List.append_assoc]
        exact ihd
    · rw [if_pos (by simp [hctl])] at hpay
      cases a with
      | pause => exact absurd rfl hctl
      | resume => exact absurd rfl hctl
      | tick => exact absurd rfl hctl
      | data n c =>
        cases c2s with
        | nil => simp at hpay
        | cons x c2s2 =>
          simp only [List.map_cons, List.cons_append, List.cons.injEq, OutAct.data.injEq] at hpay
          obtain ⟨⟨hn, hx⟩, hrest⟩ := hpay
          subst hn
          obtain ⟨he, hf, hm⟩ := stepData_inv 2 ⟨u1, d, []⟩ gs s c h
          have hput : (⟨u1, d, []⟩ : ReState).put 1 c = ⟨u1, d ++ c, []⟩ := rfl
          rw [hput] at hm
          obtain ⟨ihe, ihd⟩ := ih c2s2 c3s u1 (d ++ c) gs (s.step (OutAct.data 2 c)).1 hrest hm
          rw [runOut_cons]
          refine ⟨by rw [he, ihe]; rfl, ?_⟩
          rw [hf, List.nil_append]
          have hgoal : d ++ (x :: c2s2).flatten = (d ++ c) ++ c2s2.flatten := by
            rw [List.flatten_cons, ← hx, List.append_assoc]
          rw [hgoal]
          exact ihd
      | endA n =>
        cases c2s with
        | cons x c2s2 => simp at hpay
        | nil =>
          simp only [List.map_nil, List.nil_append, List.cons_append, List.cons.injEq,
            OutAct.endA.injEq] at hpay
          obtain ⟨hn, hrest⟩ := hpay
          subst hn
          obtain ⟨he, hf, hm⟩ := stepEnd2_inv ⟨u1, d, []⟩ gs s h
          obtain ⟨ihe, ihd⟩ := runOut_phase3 rest c3s u1 d [] gs (s.step (OutAct.endA 2)).1
            (by rw [payload]; exact hrest) hm
          rw [runOut_cons]
          refine ⟨by rw [he, ihe]; rfl, ?_⟩
          rw [hf, List.nil_append]
          rw [show (⟨u1, d ++ List.flatten [], c3s.flatten⟩ : ReState)
              = ⟨u1, d, [] ++ c3s.flatten⟩ from by simp]
          exact ihd

theorem runOut_phase1 : ∀ (acts : List OutAct) (c1s c2s c3s : List Chunk) (d : List Nat)
    (gs : List Emit) (s : OutArgStream),
    payload acts = c1s.map (OutAct.data 1) ++ [OutAct.endA 1]
      ++ c2s.map (OutAct.data 2) ++ [OutAct.endA 2]
      ++ c3s.map (OutAct.data 3) ++ [OutAct.endA 3] →
    muxInv 1 ⟨d, [], []⟩ gs s →
    (s.runOut acts).2.2 = [] ∧
    doneInv ⟨d ++ c1s.flatten, c2s.flatten, c3s.flatten⟩
      (gs ++ (s.runOut acts).2.1) (s.runOut acts).1 := by
  intro acts
  induction acts with
  | nil =>
    intro c1s c2s c3s d gs s hpay h
    rw [payload] at hpay
    cases c1s <;> simp at hpay
  | cons a rest ih =>
    intro c1s c2s c3s d gs s hpay h
    rw [payload, List.filter_cons] at hpay
    by_cases hctl : a.isCtl = true
    · rw [if_neg (by simp [hctl])] at hpay
      rw [runOut_cons]
      cases a with
      | data n c => cases hctl
      | endA n => cases hctl
      | pause =>
        obtain ⟨he, hf, hm⟩ := stepPause_inv 1 ⟨d, [], []⟩ gs s h
        obtain ⟨ihe, ihd⟩ := ih c1s c2s c3s d gs (s.step OutAct.pause).1 hpay hm
        refine ⟨by rw [he, ihe]; rfl, ?_⟩
        rw [hf, List.nil_append]
        exact ihd
      | resume =>
        obtain ⟨he, hf, hm⟩ := stepResume_inv 1 ⟨d, [], []⟩ gs s h
        obtain ⟨ihe, ihd⟩ := ih c1s c2s c3s d gs (s.step OutAct.resume).1 hpay hm
        refine ⟨by rw [he, ihe]; rfl, ?_⟩
        rw [hf, List.nil_append]
        exact ihd
      | tick =>
        obtain ⟨he, hm⟩ := stepTick_inv 1 ⟨d, [], []⟩ gs s h
        obtain ⟨ihe, ihd⟩ := ih c1s c2s c3s d (gs ++ (s.step OutAct.tick).2.1)
          (s.step OutAct.tick).1 hpay hm
        refine ⟨by rw [he, ihe]; rfl, ?_⟩
        rw [← List.append_assoc]
        exact ihd
    · rw [if_pos (by simp [hctl])] at hpay
      cases a with
      | pause => exact absurd rfl hctl
      | resume => exact absurd rfl hctl
      | tick => exact absurd rfl hctl
      | data n c =>
        cases c1s with
        | nil => simp at hpay
        | cons x c1s2 =>
          simp only [List.map_cons, List.cons_append, List.cons.injEq, OutAct.data.injEq] at hpay
          obtain ⟨⟨hn, hx⟩, hrest⟩ := hpay
          subst hn
          obtain ⟨he, hf, hm⟩ := stepData_inv 1 ⟨d, [], []⟩ gs s c h
          have hput : (⟨d, [], []⟩ : ReState).put 0 c = ⟨d ++ c, [], []⟩ := rfl
          rw [hput] at hm
          obtain ⟨ihe, ihd⟩ := ih c1s2 c2s c3s (d ++ c) gs (s.step (OutAct.data 1 c)).1 hrest hm
          rw [runOut_cons]
          refine ⟨by rw [he, ihe]; rfl, ?_⟩
          rw [hf, List.nil_append]
          have hgoal : d ++ (x :: c1s2).flatten = (d ++ c) ++ c1s2.flatten := by
            rw [List.flatten_cons, ← hx, List.append_assoc]
          rw [hgoal]
          exact ihd
      | endA n =>
        cases c1s with
        | cons x c1s2 => simp at hpay
        | nil =>
          simp only [List.map_nil, List.nil_append, List.cons_append, List.cons.injEq,
            OutAct.endA.injEq] at hpay
          obtain ⟨hn, hrest⟩ := hpay
          subst hn
          obtain ⟨he, hf, hm⟩ := stepEnd1_inv ⟨d, [], []⟩ gs s h
          obtain ⟨ihe, ihd⟩ := runOut_phase2 rest c2s c3s d [] gs (s.step (OutAct.endA 1)).1
            (by rw [payload]; exact hrest) hm
          rw [runOut_cons]
          refine ⟨by rw [he, ihe]; rfl, ?_⟩
          rw [hf, List.nil_append]
          rw [show (⟨d ++ List.flatten [], c2s.flatten, c3s.flatten⟩ : ReState)
              = ⟨d, [] ++ c2s.flatten, c3s.flatten⟩ from by simp]
          exact ihd

/-- C1: round trip.  For any three byte sequences `b1, b2, b3` (each
possibly empty) and any driver script that writes them through the
`OutArgStream` — chunked arbitrarily, with `pause`/`resume`/`tick`
(scheduling-tick) events interleaved arbitrarily — provided the stream is
not left paused at the end (a paused stream has not yet yielded its final
frame), the run emits no error, the last emitted frame group is marked
`isLast`, and feeding the emitted groups in order into a fresh
`InArgStream` reconstructs exactly `b1`, `b2`, `b3` on the three inbound
arg slots without error. -/
theorem roundtrip (b1 b2 b3 : List Nat) (acts : List OutAct)
    (hd : DriverScript b1 b2 b3 acts)
    (hp : (OutArgStream.init.runOut acts).1.paused = false) :
    (OutArgStream.init.runOut acts).2.2 = [] ∧
    Option.map Prod.snd (OutArgStream.init.runOut acts).2.1.getLast? = some true ∧
    (runIn InArgStream.init ((OutArgStream.init.runOut acts).2.1.map Prod.fst)).2 = none ∧
    (runIn InArgStream.init
      ((OutArgStream.init.runOut acts).2.1.map Prod.fst)).1.args.arg1.data = b1 ∧
    (runIn InArgStream.init
      ((OutArgStream.init.runOut acts).2.1.map Prod.fst)).1.args.arg2.data = b2 ∧
    (runIn InArgStream.init
      ((OutArgStream.init.runOut acts).2.1.map Prod.fst)).1.args.arg3.data = b3 := by
  obtain ⟨c1s, c2s, c3s, hok1, hok2, hok3, hf1, hf2, hf3, hpay⟩ := hd
  have hinit : muxInv 1 ⟨[], [], []⟩ ([] : List Emit) OutArgStream.init := by
    refine ⟨rfl, rfl, rfl, rfl, rfl, fun _ => rfl, by omega, by omega,
      0, ReState.init, rfl, rfl, ?_⟩
    show reGroup 0 ReState.init [[]] = some (1 - 1, ⟨[], [], []⟩)
    rw [show reGroup 0 ReState.init [[]]
        = some (0, ReState.init.put 0 ([] : Chunk)) from rfl, put_nil]
    rfl
  obtain ⟨he, hdone⟩ := runOut_phase1 acts c1s c2s c3s [] [] OutArgStream.init hpay hinit
  simp only [List.nil_append, hf1, hf2, hf3] at hdone
  obtain ⟨-, -, -, -, -, -, -, hUnp⟩ := hdone
  obtain ⟨hlast, hrunFull, -⟩ := hUnp hp
  have hbridge := runIn_mkIn ((OutArgStream.init.runOut acts).2.1.map Prod.fst)
    0 ReState.init 2 ⟨b1, b2, b3⟩ hrunFull
  rw [show InArgStream.init = mkIn 0 ReState.init from rfl, hbridge]
  exact ⟨he, hlast, rfl, rfl, rfl, rfl⟩

theorem roundtrip_witness :
    (OutArgStream.init.runOut
      [OutAct.data 1 [1], OutAct.endA 1, OutAct.pause, OutAct.data 2 [2], OutAct.resume,
       OutAct.data 2 [3], OutAct.tick, OutAct.endA 2, OutAct.endA 3]).2.2 = [] ∧
    Option.map Prod.snd
      (OutArgStream.init.runOut
        [OutAct.data 1 [1], OutAct.endA 1, OutAct.pause, OutAct.data 2 [2], OutAct.resume,
         OutAct.data 2 [3], OutAct.tick, OutAct.endA 2, OutAct.endA 3]).2.1.getLast?
      = some true ∧
    (runIn InArgStream.init
      ((OutArgStream.init.runOut
        [OutAct.data 1 [1], OutAct.endA 1, OutAct.pause, OutAct.data 2 [2], OutAct.resume,
         OutAct.data 2 [3], OutAct.tick, OutAct.endA 2, OutAct.endA 3]).2.1.map Prod.fst)).2
      = none ∧
    (runIn InArgStream.init
      ((OutArgStream.init.runOut
        [OutAct.data 1 [1], OutAct.endA 1, OutAct.pause, OutAct.data 2 [2], OutAct.resume,
         OutAct.data 2 [3], OutAct.tick, OutAct.endA 2, OutAct.endA 3]).2.1.map
        Prod.fst)).1.args.arg1.data = [1] ∧
    (runIn InArgStream.init
      ((OutArgStream.init.runOut
        [OutAct.data 1 [1], OutAct.endA 1, OutAct.pause, OutAct.data 2 [2], OutAct.resume,
         OutAct.data 2 [3], OutAct.tick, OutAct.endA 2, OutAct.endA 3]).2.1.map
        Prod.fst)).1.args.arg2.data = [2, 3] ∧
    (runIn InArgStream.init
      ((OutArgStream.init.runOut
        [OutAct.data 1 [1], OutAct.endA 1, OutAct.pause, OutAct.data 2 [2], OutAct.resume,
         OutAct.data 2 [3], OutAct.tick, OutAct.endA 2, OutAct.endA 3]).2.1.map
        Prod.fst)).1.args.arg3.data = [] :=
  roundtrip [1] [2, 3] []
    [OutAct.data 1 [1], OutAct.endA 1, OutAct.pause, OutAct.data 2 [2], OutAct.resume,
     OutAct.data 2 [3], OutAct.tick, OutAct.endA 2, OutAct.endA 3]
    ⟨[[1]], [[2], [3]], [], by unfold ChunksOK; decide, by unfold ChunksOK; decide,
      by unfold ChunksOK; decide, rfl, rfl, rfl, rfl⟩
    (by decide)
